import Mathlib

/-!
compressQuat: quaternion algebra and the smallest-three codec.

A shallow embedding of `compressQuat.c`.

* `float` values are read over an arbitrary linearly ordered field `α` with a floor
  function (`ℚ` for evaluation, `ℝ` for the theorems about exact real arithmetic).
* The macro `cq_Sqrt2` is a float literal for the square root of two.  A field such as `ℚ`
  has no such element, so the functions that use the macro take its value as their first
  argument; the theorems state what they need of it (`0 < cq_Sqrt2`, or they are stated at
  `Real.sqrt 2`).
* The libm functions `sqrtf` and `acosf` are arguments of the functions that call them and
  are instantiated with `Real.sqrt` and `Real.arccos`.
* Machine integers are `ℤ`/`ℕ` with explicit reductions where the source casts or masks.
  The conversion of a `float` to `int32_t` is `int32_cast`: the identity while the value
  fits 32 bits, and `INT_MIN` beyond (C leaves that case undefined; `INT_MIN` is what the
  x86-64 conversion instruction returns).
* The functions over `α` read every float operation as the exact field operation.  The
  definitions ending in `_f32` read the quantisation of `compress_pack` in binary32
  arithmetic over `ℚ`, each operation followed by `float32_round`.
-/

namespace CQ

/-- The value type `struct cqQuaternion`: the four components x, y, z, w. -/
structure cqQuaternion (α : Type) where
  x : α
  y : α
  z : α
  w : α

/-- Modelled from the spec: the record `struct CompressQuat`, declared in `compressQuat.h`
which is not among the sources.  Seven unsigned integer fields, in the order of the spec's
table; each field holds the value the source assigns to it (the source masks every value
to the field's width before the store). -/
structure CompressQuat where
  largest : ℕ
  sign : ℕ
  a : ℕ
  b : ℕ
  c : ℕ
  sign_a : ℕ
  sign_b : ℕ
  sign_c : ℕ
deriving DecidableEq, Repr

/-- Modelled from the spec: the value type `struct cqFloat3`, declared in `compressQuat.h`
which is not among the sources.  Three floats x, y, z; the Euler functions read them as
pitch = x, yaw = y, roll = z. -/
structure cqFloat3 (α : Type) where
  x : α
  y : α
  z : α

section Model

variable {α : Type} [LinearOrderedField α] [FloorRing α]

/-- The helper `clamp(_a, _x, _b)` on `int32_t`: the lower bound comes first. -/
def clamp (_a _x _b : ℤ) : ℤ :=
  let min := if _x < _b then _x else _b
  if min < _a then _a else min

/-- The conversion of an `int` value to `int16_t` (two's complement wrap-around). -/
def int16_cast (n : ℤ) : ℤ := (n + 32768) % 65536 - 32768

/-- The conversion of an `int` value to `uint16_t`. -/
def uint16_cast (n : ℤ) : ℕ := (n % 65536).toNat

/-- The source's `cq_identity`. -/
def cq_identity : cqQuaternion α := ⟨0, 0, 0, 1⟩

/-- The source's `cq_mult`. -/
def cq_mult (_a _b : cqQuaternion α) : cqQuaternion α :=
  { x := _a.w * _b.x + _a.x * _b.w + _a.y * _b.z - _a.z * _b.y
    y := _a.w * _b.y + _a.y * _b.w + _a.z * _b.x - _a.x * _b.z
    z := _a.w * _b.z + _a.z * _b.w + _a.x * _b.y - _a.y * _b.x
    w := _a.w * _b.w - _a.x * _b.x - _a.y * _b.y - _a.z * _b.z }

/-- The source's `cq_conjugate`. -/
def cq_conjugate (_a : cqQuaternion α) : cqQuaternion α :=
  { x := -_a.x, y := -_a.y, z := -_a.z, w := _a.w }

/-- The squared length `sq_len` computed by `cq_normalize` and `cq_isNormalize`. -/
def sq_len (_q : cqQuaternion α) : α :=
  _q.x * _q.x + _q.y * _q.y + _q.z * _q.z + _q.w * _q.w

/-- The source's `cq_normalize`, with libm's `sqrtf` as an argument. -/
def cq_normalize (sqrtf : α → α) (_q : cqQuaternion α) : cqQuaternion α :=
  let inv_len := 1 / sqrtf (sq_len _q)
  { x := _q.x * inv_len, y := _q.y * inv_len, z := _q.z * inv_len, w := _q.w * inv_len }

/-- The value `diff_w` of `cq_compare`. -/
def diff_w (_a _b : cqQuaternion α) : α :=
  _a.x * _b.x + _a.y * _b.y + _a.z * _b.z + _a.w * _b.w

/-- The source's `cq_compare`, with libm's `acosf` as an argument. -/
def cq_compare (acosf : α → α) (_a _b : cqQuaternion α) (_tolerance : α) : Bool :=
  let angle := 2 * acosf (min |diff_w _a _b| 1)
  decide (|angle| ≤ _tolerance)

/-- The local array `quat[4] = {x, y, z, w}` of `compress_pack`. -/
def quatOf (_src : cqQuaternion α) : Fin 4 → α := ![_src.x, _src.y, _src.z, _src.w]

/-- The table `Mapping[4][3]` of both codec functions. -/
def Mapping : Fin 4 → Fin 3 → Fin 4 :=
  ![![1, 2, 3], ![0, 2, 3], ![0, 1, 3], ![0, 1, 2]]

/-- One iteration of the scan of `compress_pack`; the state is `(largest, max)`. -/
def scanStep (quat : Fin 4 → α) (st : Fin 4 × α) (i : Fin 4) : Fin 4 × α :=
  if |quat i| > st.2 then (i, |quat i|) else st

/-- The scan `for (i = 0; i < 4; ++i)` of `compress_pack`, started at
`largest = 0, max = fabsf(quat[0])`; the result is the final `largest`. -/
def findLargest (quat : Fin 4 → α) : Fin 4 :=
  (List.foldl (scanStep quat) (0, |quat 0|) [0, 1, 2, 3]).1

/-- The conversion `(int32_t)` of an integral `float` value: the identity on the range of
`int32_t`.  Outside that range the conversion is undefined in C; the model returns
`INT_MIN = -2147483648`, the result of the x86-64 conversion instruction. -/
def int32_cast (n : ℤ) : ℤ :=
  if -2147483648 ≤ n ∧ n ≤ 2147483647 then n else -2147483648

/-- The quantised value of one component: `floorf(v * Float2Int + .5f)` converted to
`int32_t`, with `Float2Int = 16384.f * cq_Sqrt2`; the float operations are exact here. -/
def quantize (cq_Sqrt2 : α) (v : α) : ℤ :=
  let Float2Int : α := 16384 * cq_Sqrt2
  int32_cast ⌊v * Float2Int + 1 / 2⌋

/-- The clamped value `l_a` of `compress_pack`: `clamp(-maxAbsRage, a, maxAbsRage)`
converted to `int16_t`, with `maxAbsRage = 16384`. -/
def clampQ (a : ℤ) : ℤ :=
  let maxAbsRage : ℤ := 16384
  int16_cast (clamp (-maxAbsRage) a maxAbsRage)

/-- The stored field `(uint16_t)(l_a & 0x3FFF)`: the mask keeps the low 14 bits of the
two's complement value, which is the residue modulo `2^14`. -/
def lowBits (l_a : ℤ) : ℕ := uint16_cast (l_a % 16384)

/-- The source's `compress_pack`. -/
def compress_pack (cq_Sqrt2 : α) (_src : cqQuaternion α) : CompressQuat :=
  let quat := quatOf _src
  let largest := findLargest quat
  let map := Mapping largest
  let a := quantize cq_Sqrt2 (quat (map 0))
  let b := quantize cq_Sqrt2 (quat (map 1))
  let c := quantize cq_Sqrt2 (quat (map 2))
  let l_a := clampQ a
  let l_b := clampQ b
  let l_c := clampQ c
  { largest := largest.val % 4
    sign := if quat largest < 0 then 1 else 0
    a := lowBits l_a
    b := lowBits l_b
    c := lowBits l_c
    sign_a := if l_a < 0 then 1 else 0
    sign_b := if l_b < 0 then 1 else 0
    sign_c := if l_c < 0 then 1 else 0 }

/-- The dequantised component of `uncompress_pack`:
`sign > 0 ? -(a * Int2Float) : (a * Int2Float)` with `Int2Float = 1.f / (16384.f * cq_Sqrt2)`. -/
def dequantize (cq_Sqrt2 : α) (sign a : ℕ) : α :=
  let Int2Float : α := 1 / (16384 * cq_Sqrt2)
  if sign > 0 then -((a : α) * Int2Float) else (a : α) * Int2Float

/-- The array `quat` of `uncompress_pack` after its four assignments.  The field `largest`
is two bits wide, so it is read modulo 4. -/
def unpackArray (cq_Sqrt2 : α) (_src : CompressQuat) : Fin 4 → α :=
  let largest : Fin 4 := Fin.ofNat _src.largest
  let map := Mapping largest
  let quat0 : Fin 4 → α := ![0, 0, 0, 0]
  let quat1 := Function.update quat0 largest (if _src.sign > 0 then -1 else 1)
  let quat2 := Function.update quat1 (map 0) (dequantize cq_Sqrt2 _src.sign_a _src.a)
  let quat3 := Function.update quat2 (map 1) (dequantize cq_Sqrt2 _src.sign_b _src.b)
  Function.update quat3 (map 2) (dequantize cq_Sqrt2 _src.sign_c _src.c)

/-- The source's `uncompress_pack`. -/
def uncompress_pack (cq_Sqrt2 : α) (_src : CompressQuat) : cqQuaternion α :=
  let quat := unpackArray cq_Sqrt2 _src
  { x := quat 0, y := quat 1, z := quat 2, w := quat 3 }

/-- The source's `uncompress_packN`. -/
def uncompress_packN (sqrtf : α → α) (cq_Sqrt2 : α) (_src : CompressQuat) : cqQuaternion α :=
  cq_normalize sqrtf (uncompress_pack cq_Sqrt2 _src)

/-- The macro `cq_NormalizationToleranceSq`, the float literal `1e-6f`. -/
def cq_NormalizationToleranceSq : α := 1 / 1000000

/-- The source's `cq_isNormalize`. -/
def cq_isNormalize (_q : cqQuaternion α) : Bool :=
  decide (|sq_len _q - 1| < cq_NormalizationToleranceSq)

/-- The source's `cq_fromEuler`, with libm's `cosf` and `sinf` as arguments. -/
def cq_fromEuler (cosf sinf : α → α) (_euler : cqFloat3 α) : cqQuaternion α :=
  let half_euler : cqFloat3 α := ⟨_euler.x * (1 / 2), _euler.y * (1 / 2), _euler.z * (1 / 2)⟩
  let c1 := cosf half_euler.x
  let s1 := sinf half_euler.x
  let c2 := cosf half_euler.y
  let s2 := sinf half_euler.y
  let c3 := cosf half_euler.z
  let s3 := sinf half_euler.z
  let c1c2 := c1 * c2
  let s1s2 := s1 * s2
  { x := c1c2 * s3 + s1s2 * c3
    y := s1 * c2 * c3 + c1 * s2 * s3
    z := c1 * s2 * c3 - s1 * c2 * s3
    w := c1c2 * c3 - s1s2 * s3 }

/-- The value `test` of `cq_toEuler`. -/
def eulerTest (_q : cqQuaternion α) : α := _q.x * _q.y + _q.z * _q.w

/-- The source's `cq_toEuler`, with libm's `atan2f` and `asinf` and the macro `cq_Pi_2`
(a float literal for half of pi) as arguments; the literal `.499f` is `499/1000`. -/
def cq_toEuler (atan2f : α → α → α) (asinf : α → α) (cq_Pi_2 : α) (_q : cqQuaternion α) :
    cqFloat3 α :=
  let sqw := _q.w * _q.w
  let sqx := _q.x * _q.x
  let sqy := _q.y * _q.y
  let sqz := _q.z * _q.z
  let unit := sqx + sqy + sqz + sqw
  let test := eulerTest _q
  if test > 499 / 1000 * unit then
    { x := 2 * atan2f _q.x _q.w, y := cq_Pi_2, z := 0 }
  else if test < -(499 / 1000) * unit then
    { x := -2 * atan2f _q.x _q.w, y := -cq_Pi_2, z := 0 }
  else
    { x := atan2f (2 * _q.y * _q.w - 2 * _q.x * _q.z) (sqx - sqy - sqz + sqw)
      y := asinf (2 * test / unit)
      z := atan2f (2 * _q.x * _q.w - 2 * _q.y * _q.z) (-sqx + sqy - sqz + sqw) }

/-- The quantised and clamped value of a component as the specification words it:
`n = max(-16384, min(16384, ⌊v·16384·cq_Sqrt2 + 1/2⌋))`.  The theorems compare it with
`clampQ (quantize cq_Sqrt2 v)`, the value computed by the source. -/
def quantizedSpec (cq_Sqrt2 : α) (v : α) : ℤ :=
  max (-16384) (min 16384 ⌊v * (16384 * cq_Sqrt2) + 1 / 2⌋)

/-- The value that `uncompress_pack` reads back for a component `v` stored by
`compress_pack`: `v` is quantised, clamped and masked, and the stored field and sign bit
are dequantised. -/
def storedRoundTrip (cq_Sqrt2 : α) (v : α) : α :=
  let l := clampQ (quantize cq_Sqrt2 v)
  dequantize cq_Sqrt2 (if l < 0 then 1 else 0) (lowBits l)

/-- The reading of `(x, y, z, w)` as the quaternion `w + x i + y j + z k` of the
quaternion algebra (`i² = j² = k² = ijk = -1`). -/
def toQuaternion (q : cqQuaternion α) : Quaternion α := ⟨q.w, q.x, q.y, q.z⟩

end Model

/-- The integer nearest to `m`, the even one of the two when `m` lies halfway between
two integers (the rounding rule of IEEE 754 arithmetic). -/
def roundHalfEven (m : ℚ) : ℤ :=
  let f := ⌊m⌋
  if m - f < 1 / 2 then f
  else if 1 / 2 < m - f then f + 1
  else if f % 2 = 0 then f else f + 1

/-- The binary32 (`float`) value nearest to the rational `x`, ties to even: with
`2^e ≤ |x| < 2^(e+1)` (and `e` at least -126, the subnormal range) the floats around `x`
are the multiples of `2^(e-23)`.  Overflow to infinity (results of `2^128` and more) is not
modelled. -/
def float32_round (x : ℚ) : ℚ :=
  if x = 0 then 0
  else
    let e : ℤ := max (Int.log 2 |x|) (-126)
    (roundHalfEven (x / 2 ^ (e - 23)) : ℚ) * 2 ^ (e - 23)

/-- The macro `cq_Sqrt2` as the compiler reads it: the literal
`1.4142135623730950488016887242097f` rounded to binary32. -/
def cq_Sqrt2_f32 : ℚ := float32_round 1.4142135623730950488016887242097

/-- The constant `Float2Int = 16384.f * cq_Sqrt2` of `compress_pack` in binary32. -/
def Float2Int_f32 : ℚ := float32_round (16384 * cq_Sqrt2_f32)

/-- The quantised value of one component in binary32 arithmetic:
`(int32_t)floorf(v * Float2Int + .5f)` with the product and the sum each rounded to
binary32 (`floorf` of a float is exact). -/
def quantize_f32 (v : ℚ) : ℤ :=
  int32_cast ⌊float32_round (float32_round (v * Float2Int_f32) + 1 / 2)⌋

/-- The source's `compress_pack` in binary32 arithmetic, on a quaternion whose components
are binary32 values: the scan, the signs, the clamp and the masks are exact operations,
the quantisation is `quantize_f32`. -/
def compress_pack_f32 (_src : cqQuaternion ℚ) : CompressQuat :=
  let quat := quatOf _src
  let largest := findLargest quat
  let map := Mapping largest
  let a := quantize_f32 (quat (map 0))
  let b := quantize_f32 (quat (map 1))
  let c := quantize_f32 (quat (map 2))
  let l_a := clampQ a
  let l_b := clampQ b
  let l_c := clampQ c
  { largest := largest.val % 4
    sign := if quat largest < 0 then 1 else 0
    a := lowBits l_a
    b := lowBits l_b
    c := lowBits l_c
    sign_a := if l_a < 0 then 1 else 0
    sign_b := if l_b < 0 then 1 else 0
    sign_c := if l_c < 0 then 1 else 0 }

/-- The function `atan2` of libm over the reals: the angle in `(-π, π]` of the point
`(x, y)`, which is the argument of the complex number `x + y i` (0 at the origin). -/
noncomputable def atan2 (y x : ℝ) : ℝ := Complex.arg ⟨x, y⟩


/-! Lemmas about the scan, the table and the arrays. -/

section OrderedField

variable {α : Type} [LinearOrderedField α]

theorem findLargest_max (quat : Fin 4 → α) (j : Fin 4) :
    |quat j| ≤ |quat (findLargest quat)| := by
  unfold findLargest scanStep
  simp only [List.foldl]
  fin_cases j <;> simp only [Fin.zero_eta, Fin.mk_one, Fin.reduceFinMk] <;> split_ifs <;>
    simp only [not_lt] at * <;> linarith

theorem findLargest_lowest (quat : Fin 4 → α) (i : Fin 4)
    (h : ∀ j, |quat j| ≤ |quat i|) : findLargest quat ≤ i := by
  obtain ⟨h0, h1, h2, h3⟩ : |quat 0| ≤ |quat i| ∧ |quat 1| ≤ |quat i| ∧ |quat 2| ≤ |quat i| ∧
      |quat 3| ≤ |quat i| := ⟨h 0, h 1, h 2, h 3⟩
  clear h
  unfold findLargest scanStep
  simp only [List.foldl]
  fin_cases i <;> simp only [Fin.zero_eta, Fin.mk_one, Fin.reduceFinMk] at * <;> split_ifs <;>
    first | (dsimp only; decide) | (exfalso; simp only [not_lt] at *; linarith)

theorem Mapping_rows :
    (Mapping 0 0 = 1 ∧ Mapping 0 1 = 2 ∧ Mapping 0 2 = 3) ∧
    (Mapping 1 0 = 0 ∧ Mapping 1 1 = 2 ∧ Mapping 1 2 = 3) ∧
    (Mapping 2 0 = 0 ∧ Mapping 2 1 = 1 ∧ Mapping 2 2 = 3) ∧
    (Mapping 3 0 = 0 ∧ Mapping 3 1 = 1 ∧ Mapping 3 2 = 2) := by
  decide

theorem quatOf_apply {β : Type} (q : cqQuaternion β) :
    quatOf q 0 = q.x ∧ quatOf q 1 = q.y ∧ quatOf q 2 = q.z ∧ quatOf q 3 = q.w :=
  ⟨rfl, rfl, rfl, rfl⟩

theorem Mapping_ne (L : Fin 4) (k : Fin 3) : Mapping L k ≠ L := by
  fin_cases L <;> fin_cases k <;> decide

theorem Mapping_cover (L i : Fin 4) (h : i ≠ L) : ∃ k, Mapping L k = i := by
  fin_cases L <;> fin_cases i <;> first | exact absurd rfl h | decide

theorem Fin_ofNat_val_mod (L : Fin 4) : (Fin.ofNat (L.val % 4) : Fin 4) = L := by
  fin_cases L <;> rfl

theorem quatOf_uncompress_pack (s : α) (r : CompressQuat) :
    quatOf (uncompress_pack s r) = unpackArray s r := by
  funext i
  fin_cases i <;> rfl

theorem Mapping_injective (L : Fin 4) (j k : Fin 3) (h : j ≠ k) :
    Mapping L j ≠ Mapping L k := by
  fin_cases L <;> fin_cases j <;> fin_cases k <;> first | exact absurd rfl h | decide

theorem unpackArray_largest (s : α) (r : CompressQuat) :
    unpackArray s r (Fin.ofNat r.largest) = if r.sign > 0 then -1 else 1 := by
  unfold unpackArray
  rw [Function.update_noteq (Mapping_ne _ 2).symm, Function.update_noteq (Mapping_ne _ 1).symm,
    Function.update_noteq (Mapping_ne _ 0).symm, Function.update_same]

theorem unpackArray_map0 (s : α) (r : CompressQuat) :
    unpackArray s r (Mapping (Fin.ofNat r.largest) 0) = dequantize s r.sign_a r.a := by
  unfold unpackArray
  rw [Function.update_noteq (Mapping_injective _ 0 2 (by decide)),
    Function.update_noteq (Mapping_injective _ 0 1 (by decide)), Function.update_same]

theorem unpackArray_map1 (s : α) (r : CompressQuat) :
    unpackArray s r (Mapping (Fin.ofNat r.largest) 1) = dequantize s r.sign_b r.b := by
  unfold unpackArray
  rw [Function.update_noteq (Mapping_injective _ 1 2 (by decide)), Function.update_same]

theorem unpackArray_map2 (s : α) (r : CompressQuat) :
    unpackArray s r (Mapping (Fin.ofNat r.largest) 2) = dequantize s r.sign_c r.c := by
  unfold unpackArray
  rw [Function.update_same]

end OrderedField

section Codec

variable {α : Type} [LinearOrderedField α] [FloorRing α]

theorem compress_pack_largest (s : α) (q : cqQuaternion α) :
    (compress_pack s q).largest = (findLargest (quatOf q)).val := by
  show (findLargest (quatOf q)).val % 4 = _
  exact Nat.mod_eq_of_lt (findLargest (quatOf q)).isLt

theorem ofNat_compress_pack_largest (s : α) (q : cqQuaternion α) :
    (Fin.ofNat (compress_pack s q).largest : Fin 4) = findLargest (quatOf q) :=
  Fin_ofNat_val_mod _

theorem lowBits_le (n : ℤ) : lowBits n ≤ 16383 := by
  unfold lowBits uint16_cast
  omega

end Codec

section RoundTrip

variable {α : Type} [LinearOrderedField α] [FloorRing α]

theorem unpack_pack_largest (s : α) (q : cqQuaternion α) :
    quatOf (uncompress_pack s (compress_pack s q)) (findLargest (quatOf q)) =
      (if quatOf q (findLargest (quatOf q)) < 0 then -1 else 1) := by
  rw [quatOf_uncompress_pack, ← ofNat_compress_pack_largest s q, unpackArray_largest,
    ofNat_compress_pack_largest]
  show (if (if quatOf q (findLargest (quatOf q)) < 0 then 1 else 0) > 0 then (-1 : α) else 1) = _
  split_ifs with h <;> simp at *

theorem unpack_pack_stored (s : α) (q : cqQuaternion α) (k : Fin 3) :
    quatOf (uncompress_pack s (compress_pack s q)) (Mapping (findLargest (quatOf q)) k) =
      storedRoundTrip s (quatOf q (Mapping (findLargest (quatOf q)) k)) := by
  rw [quatOf_uncompress_pack]
  have h0 := unpackArray_map0 s (compress_pack s q)
  have h1 := unpackArray_map1 s (compress_pack s q)
  have h2 := unpackArray_map2 s (compress_pack s q)
  rw [ofNat_compress_pack_largest] at h0 h1 h2
  fin_cases k
  · exact h0
  · exact h1
  · exact h2

theorem clampQ_of_mem (n : ℤ) (h1 : -16384 ≤ n) (h2 : n ≤ 16384) : clampQ n = n := by
  unfold clampQ clamp int16_cast
  simp only
  split_ifs <;> omega

theorem lowBits_of_mem (n : ℤ) (h1 : 0 ≤ n) (h2 : n ≤ 16383) : (lowBits n : ℤ) = n := by
  unfold lowBits uint16_cast
  omega

theorem int32_cast_of_mem (n : ℤ) (h1 : -2147483648 ≤ n) (h2 : n ≤ 2147483647) :
    int32_cast n = n := by
  unfold int32_cast
  rw [if_pos ⟨h1, h2⟩]

theorem quantize_eq_floor (s v : α) (h1 : -2147483648 ≤ ⌊v * (16384 * s) + 1 / 2⌋)
    (h2 : ⌊v * (16384 * s) + 1 / 2⌋ ≤ 2147483647) :
    quantize s v = ⌊v * (16384 * s) + 1 / 2⌋ :=
  int32_cast_of_mem _ h1 h2

theorem storedRoundTrip_nonneg (s : α) (hs : 0 < s) (v : α) (hv : 0 ≤ v)
    (hlt : v * (16384 * s) + 1 / 2 < 16384) :
    storedRoundTrip s v = (quantize s v : α) / (16384 * s) ∧
    (0 : α) ≤ (quantize s v : α) ∧
    |storedRoundTrip s v - v| ≤ 1 / (2 * (16384 * s)) := by
  have hS : (0 : α) < 16384 * s := by positivity
  have hf0 : 0 ≤ ⌊v * (16384 * s) + 1 / 2⌋ := Int.floor_nonneg.mpr (by positivity)
  have hf1 : ⌊v * (16384 * s) + 1 / 2⌋ < 16384 := Int.floor_lt.mpr (by exact_mod_cast hlt)
  have hqf : quantize s v = ⌊v * (16384 * s) + 1 / 2⌋ :=
    quantize_eq_floor s v (by omega) (by omega)
  have hn0 : 0 ≤ quantize s v := by rw [hqf]; exact hf0
  have hn1 : quantize s v ≤ 16383 := by rw [hqf]; omega
  have hlo : (quantize s v : α) ≤ v * (16384 * s) + 1 / 2 := by rw [hqf]; exact Int.floor_le _
  have hhi : v * (16384 * s) + 1 / 2 < (quantize s v : α) + 1 := by
    rw [hqf]; exact Int.lt_floor_add_one _
  have e : storedRoundTrip s v = (quantize s v : α) / (16384 * s) := by
    unfold storedRoundTrip
    simp only
    rw [clampQ_of_mem _ (by omega) (by omega), if_neg (by omega)]
    unfold dequantize
    simp only [gt_iff_lt, lt_self_iff_false, if_false]
    have hc : ((lowBits (quantize s v) : ℕ) : α) = ((quantize s v : ℤ) : α) := by
      have h := congrArg (Int.cast : ℤ → α) (lowBits_of_mem _ hn0 hn1)
      simpa using h
    rw [hc, mul_one_div]
  refine ⟨e, by exact_mod_cast hn0, ?_⟩
  rw [e, abs_le]
  constructor
  · rw [le_sub_iff_add_le, le_div_iff₀ hS]
    have : (-(1 / (2 * (16384 * s))) + v) * (16384 * s) = v * (16384 * s) - 1 / 2 := by
      field_simp
      ring
    rw [this]
    linarith
  · rw [sub_le_iff_le_add, div_le_iff₀ hS]
    have : (1 / (2 * (16384 * s)) + v) * (16384 * s) = v * (16384 * s) + 1 / 2 := by
      field_simp
      ring
    rw [this]
    linarith

end RoundTrip

section Sums

variable {α : Type} [LinearOrderedField α]

theorem sum_split (L : Fin 4) (f : Fin 4 → α) :
    f 0 + f 1 + f 2 + f 3 = f L + f (Mapping L 0) + f (Mapping L 1) + f (Mapping L 2) := by
  obtain ⟨⟨a0, a1, a2⟩, ⟨b0, b1, b2⟩, ⟨c0, c1, c2⟩, ⟨d0, d1, d2⟩⟩ := Mapping_rows
  fin_cases L <;> simp only [Fin.zero_eta, Fin.mk_one, Fin.reduceFinMk, a0, a1, a2, b0, b1, b2,
    c0, c1, c2, d0, d1, d2] <;> ring

theorem diff_w_split (L : Fin 4) (a b : cqQuaternion α) :
    diff_w a b = quatOf a L * quatOf b L
      + quatOf a (Mapping L 0) * quatOf b (Mapping L 0)
      + quatOf a (Mapping L 1) * quatOf b (Mapping L 1)
      + quatOf a (Mapping L 2) * quatOf b (Mapping L 2) :=
  sum_split L (fun i => quatOf a i * quatOf b i)

theorem sq_len_split (L : Fin 4) (a : cqQuaternion α) :
    sq_len a = quatOf a L * quatOf a L
      + quatOf a (Mapping L 0) * quatOf a (Mapping L 0)
      + quatOf a (Mapping L 1) * quatOf a (Mapping L 1)
      + quatOf a (Mapping L 2) * quatOf a (Mapping L 2) :=
  sum_split L (fun i => quatOf a i * quatOf a i)

theorem diff_w_cq_normalize (sqrtf : α → α) (a b : cqQuaternion α) :
    diff_w a (cq_normalize sqrtf b) = diff_w a b * (1 / sqrtf (sq_len b)) := by
  simp only [diff_w, cq_normalize]
  ring

end Sums

section Claims

variable {α : Type} [LinearOrderedField α] [FloorRing α]

theorem quantize_zero (s : α) : quantize s 0 = 0 := by
  have h : ⌊(0 : α) * (16384 * s) + 1 / 2⌋ = 0 := by
    rw [Int.floor_eq_iff]
    constructor <;> norm_num
  rw [quantize_eq_floor _ _ (by rw [h]; norm_num) (by rw [h]; norm_num), h]

/-- C3: `compress_pack(q).largest` is the lowest index whose component has the greatest
absolute value (an index `L` with `|q[j]| ≤ |q[L]|` for all `j`, and below every other
such index); for `q = (0.5, 0.5, 0.5, 0.5)` it is 0. -/
theorem largest_is_lowest_maximal_index (cq_Sqrt2 : α) (q : cqQuaternion α) :
    (∃ L : Fin 4, (compress_pack cq_Sqrt2 q).largest = L.val ∧
      (∀ j, |quatOf q j| ≤ |quatOf q L|) ∧
      (∀ i : Fin 4, (∀ j, |quatOf q j| ≤ |quatOf q i|) → L ≤ i)) ∧
    (compress_pack cq_Sqrt2 (⟨1 / 2, 1 / 2, 1 / 2, 1 / 2⟩ : cqQuaternion α)).largest = 0 := by
  refine ⟨⟨findLargest (quatOf q), compress_pack_largest _ _, findLargest_max _,
    findLargest_lowest _⟩, ?_⟩
  rw [compress_pack_largest]
  have h := findLargest_lowest (quatOf (⟨1 / 2, 1 / 2, 1 / 2, 1 / 2⟩ : cqQuaternion α)) 0
    (by intro j; fin_cases j <;> simp [quatOf])
  exact Fin.val_eq_of_eq (Fin.le_zero_iff.mp h)

/-- C4: with `L` the index found by the scan (the field `largest`), the field `sign` of
`compress_pack(q)` is 1 exactly when `q[L] < 0`, and the component of
`uncompress_pack(compress_pack(q))` at `L` is exactly -1 when `q[L] < 0` and exactly 1
otherwise. -/
theorem sign_metadata_roundtrip (cq_Sqrt2 : α) (q : cqQuaternion α) :
    (compress_pack cq_Sqrt2 q).largest = (findLargest (quatOf q)).val ∧
    ((compress_pack cq_Sqrt2 q).sign = 1 ↔ quatOf q (findLargest (quatOf q)) < 0) ∧
    quatOf (uncompress_pack cq_Sqrt2 (compress_pack cq_Sqrt2 q)) (findLargest (quatOf q)) =
      (if quatOf q (findLargest (quatOf q)) < 0 then -1 else 1) := by
  refine ⟨compress_pack_largest _ _, ?_, ?_⟩
  · show (if quatOf q (findLargest (quatOf q)) < 0 then 1 else 0) = 1 ↔ _
    split_ifs with h <;> simp [h]
  · exact unpack_pack_largest cq_Sqrt2 q

/-- C7: every field of `compress_pack(q)` lies in its bit width: `largest ≤ 3`,
`sign ≤ 1`, `a, b, c ≤ 16383` and `sign_a, sign_b, sign_c ≤ 1`. -/
theorem record_well_formed (cq_Sqrt2 : α) (q : cqQuaternion α) :
    (compress_pack cq_Sqrt2 q).largest ≤ 3 ∧ (compress_pack cq_Sqrt2 q).sign ≤ 1 ∧
    (compress_pack cq_Sqrt2 q).a ≤ 16383 ∧ (compress_pack cq_Sqrt2 q).b ≤ 16383 ∧
    (compress_pack cq_Sqrt2 q).c ≤ 16383 ∧ (compress_pack cq_Sqrt2 q).sign_a ≤ 1 ∧
    (compress_pack cq_Sqrt2 q).sign_b ≤ 1 ∧ (compress_pack cq_Sqrt2 q).sign_c ≤ 1 := by
  refine ⟨?_, ?_, lowBits_le _, lowBits_le _, lowBits_le _, ?_, ?_, ?_⟩
  · rw [compress_pack_largest]
    have := (findLargest (quatOf q)).isLt
    omega
  all_goals
    simp only [compress_pack]
    split_ifs <;> simp

/-- C8: `compress_pack((0,0,0,1))` is the record `largest = 3, sign = 0, a = b = c = 0,
sign_a = sign_b = sign_c = 0`, and `uncompress_pack` of that record is exactly
`(0,0,0,1)`. -/
theorem identity_scenario (cq_Sqrt2 : α) :
    compress_pack cq_Sqrt2 (⟨0, 0, 0, 1⟩ : cqQuaternion α) = ⟨3, 0, 0, 0, 0, 0, 0, 0⟩ ∧
    uncompress_pack cq_Sqrt2 ⟨3, 0, 0, 0, 0, 0, 0, 0⟩ = (⟨0, 0, 0, 1⟩ : cqQuaternion α) := by
  have hL : findLargest (quatOf (⟨0, 0, 0, 1⟩ : cqQuaternion α)) = 3 := by
    simp [findLargest, scanStep, quatOf]
  obtain ⟨-, -, -, m0, m1, m2⟩ := Mapping_rows
  obtain ⟨qx, qy, qz, -⟩ := quatOf_apply (⟨0, 0, 0, 1⟩ : cqQuaternion α)
  constructor
  · simp only [compress_pack, hL, m0, m1, m2, qx, qy, qz, quantize_zero]
    simp [quatOf, clampQ, clamp, int16_cast, lowBits, uint16_cast]
    rfl
  · have h3 : (Fin.ofNat 3 : Fin 4) = 3 := rfl
    have e := quatOf_uncompress_pack cq_Sqrt2 ⟨3, 0, 0, 0, 0, 0, 0, 0⟩
    have eL := unpackArray_largest cq_Sqrt2 ⟨3, 0, 0, 0, 0, 0, 0, 0⟩
    have e0 := unpackArray_map0 cq_Sqrt2 ⟨3, 0, 0, 0, 0, 0, 0, 0⟩
    have e1 := unpackArray_map1 cq_Sqrt2 ⟨3, 0, 0, 0, 0, 0, 0, 0⟩
    have e2 := unpackArray_map2 cq_Sqrt2 ⟨3, 0, 0, 0, 0, 0, 0, 0⟩
    simp only [h3, m0, m1, m2, ← e] at eL e0 e1 e2
    obtain ⟨ux, uy, uz, uw⟩ := quatOf_apply (uncompress_pack cq_Sqrt2 ⟨3, 0, 0, 0, 0, 0, 0, 0⟩)
    rw [ux] at e0
    rw [uy] at e1
    rw [uz] at e2
    rw [uw] at eL
    cases hu : uncompress_pack cq_Sqrt2 ⟨3, 0, 0, 0, 0, 0, 0, 0⟩ with
    | mk x y z w =>
      rw [hu] at e0 e1 e2 eL
      simp [dequantize] at e0 e1 e2 eL
      simp [e0, e1, e2, eL]

end Claims

section Algebra

variable {α : Type} [LinearOrderedField α]

/-- C10: `cq_mult` is the Hamilton product: under the reading of `(x, y, z, w)` as
`w + x i + y j + z k` in the quaternion algebra, `cq_mult a b` is `a * b`, `cq_identity`
is the unit `1`, and `cq_identity` is a left and right unit of `cq_mult`. -/
theorem cq_mult_is_hamilton_product (a b : cqQuaternion α) :
    toQuaternion (cq_mult a b) = toQuaternion a * toQuaternion b ∧
    toQuaternion (cq_identity : cqQuaternion α) = 1 ∧
    cq_mult cq_identity a = a ∧ cq_mult a cq_identity = a := by
  refine ⟨?_, ?_, ?_, ?_⟩
  · ext <;> simp [toQuaternion, cq_mult] <;> ring
  · ext <;> simp [toQuaternion, cq_identity]
  · cases a; simp [cq_mult, cq_identity]
  · cases a; simp [cq_mult, cq_identity]

end Algebra

section Bounds

variable {α : Type} [LinearOrderedField α]

theorem dequantize_abs (s : α) (hs : 0 < s) (sg a : ℕ) :
    |dequantize s sg a| = (a : α) / (16384 * s) := by
  have h : (0 : α) ≤ (a : α) * (1 / (16384 * s)) := by positivity
  unfold dequantize
  split_ifs
  · rw [abs_neg, abs_of_nonneg h, mul_one_div]
  · rw [abs_of_nonneg h, mul_one_div]

theorem dequantize_abs_le (s : α) (hs : 0 < s) (sg a : ℕ) (ha : a ≤ 16383) :
    |dequantize s sg a| ≤ 1 / s := by
  rw [dequantize_abs s hs, div_le_div_iff₀ (by positivity) hs, one_mul]
  have h : (a : α) ≤ 16383 := by exact_mod_cast ha
  nlinarith

theorem unpackArray_other_le (s : α) (hs : 0 < s) (r : CompressQuat)
    (ha : r.a ≤ 16383) (hb : r.b ≤ 16383) (hc : r.c ≤ 16383) (i : Fin 4)
    (hi : i ≠ Fin.ofNat r.largest) : |unpackArray s r i| ≤ 1 / s := by
  obtain ⟨k, rfl⟩ := Mapping_cover _ i hi
  fin_cases k
  · exact (unpackArray_map0 s r).symm ▸ dequantize_abs_le s hs _ _ ha
  · exact (unpackArray_map1 s r).symm ▸ dequantize_abs_le s hs _ _ hb
  · exact (unpackArray_map2 s r).symm ▸ dequantize_abs_le s hs _ _ hc

theorem sq_le_sq_len (q : cqQuaternion α) (i : Fin 4) : quatOf q i * quatOf q i ≤ sq_len q := by
  obtain ⟨hx, hy, hz, hw⟩ := quatOf_apply q
  unfold sq_len
  fin_cases i <;> simp only [Fin.zero_eta, Fin.mk_one, Fin.reduceFinMk, hx, hy, hz, hw] <;>
    nlinarith [mul_self_nonneg q.x, mul_self_nonneg q.y, mul_self_nonneg q.z, mul_self_nonneg q.w]

theorem one_le_sq_len_uncompress_pack (s : α) (r : CompressQuat) :
    1 ≤ sq_len (uncompress_pack s r) := by
  have h := sq_le_sq_len (uncompress_pack s r) (Fin.ofNat r.largest)
  rw [quatOf_uncompress_pack, unpackArray_largest] at h
  split_ifs at h <;> linarith

theorem sq_len_cq_normalize (q : cqQuaternion ℝ) (h : 0 < sq_len q) :
    sq_len (cq_normalize Real.sqrt q) = 1 := by
  have hs : Real.sqrt (sq_len q) * Real.sqrt (sq_len q) = sq_len q :=
    Real.mul_self_sqrt h.le
  have hpos : 0 < Real.sqrt (sq_len q) := Real.sqrt_pos.mpr h
  have e : sq_len (cq_normalize Real.sqrt q) =
      sq_len q * (1 / Real.sqrt (sq_len q)) * (1 / Real.sqrt (sq_len q)) := by
    simp only [cq_normalize, sq_len]
    ring
  rw [e]
  field_simp

end Bounds

section RealClaims

open Real

/-- C6: for every quaternion `q`, with `L` the index found by the scan (the field
`largest`), the decoded quaternion `uncompress_pack(compress_pack(q))` has absolute value
exactly 1 at `L` and at most `1/√2`, which is below 1, at every other index. -/
theorem omitted_component_dominance (q : cqQuaternion ℝ) :
    (compress_pack (√2) q).largest = (findLargest (quatOf q)).val ∧
    |quatOf (uncompress_pack (√2) (compress_pack (√2) q)) (findLargest (quatOf q))| = 1 ∧
    (∀ i : Fin 4, i ≠ findLargest (quatOf q) →
      |quatOf (uncompress_pack (√2) (compress_pack (√2) q)) i| ≤ 1 / √2) ∧
    1 / √2 < (1 : ℝ) := by
  have hs : (0 : ℝ) < √2 := Real.sqrt_pos.mpr (by norm_num)
  refine ⟨compress_pack_largest _ _, ?_, ?_, ?_⟩
  · rw [quatOf_uncompress_pack, ← ofNat_compress_pack_largest (√2) q, unpackArray_largest]
    split_ifs <;> simp
  · intro i hi
    rw [quatOf_uncompress_pack]
    refine unpackArray_other_le _ hs _ (lowBits_le _) (lowBits_le _) (lowBits_le _) i ?_
    rwa [ofNat_compress_pack_largest]
  · rw [div_lt_one hs]
    exact Real.lt_sqrt_of_sq_lt (by norm_num)

/-- C9: for every record `r` with `largest ≤ 3` (the other fields arbitrary) and whatever
the value of the constant `cq_Sqrt2`, the squared norm of `uncompress_pack(r)` is at least
1, so `cq_normalize` divides by a positive number, and `uncompress_packN(r)`, which is
`cq_normalize(uncompress_pack(r))`, has squared norm exactly 1. -/
theorem uncompress_packN_unit (cq_Sqrt2 : ℝ) (r : CompressQuat) (_hr : r.largest ≤ 3) :
    1 ≤ sq_len (uncompress_pack cq_Sqrt2 r) ∧
    0 < Real.sqrt (sq_len (uncompress_pack cq_Sqrt2 r)) ∧
    uncompress_packN Real.sqrt cq_Sqrt2 r = cq_normalize Real.sqrt (uncompress_pack cq_Sqrt2 r) ∧
    sq_len (uncompress_packN Real.sqrt cq_Sqrt2 r) = 1 := by
  have h1 := one_le_sq_len_uncompress_pack cq_Sqrt2 r
  have h0 : 0 < sq_len (uncompress_pack cq_Sqrt2 r) := by linarith
  exact ⟨h1, Real.sqrt_pos.mpr h0, rfl, sq_len_cq_normalize _ h0⟩

/-- C9 at the record `largest = 0, a = b = c = 11585` with clear sign bits. -/
theorem uncompress_packN_unit_witness :
    1 ≤ sq_len (uncompress_pack (√2) ⟨0, 0, 11585, 11585, 11585, 0, 0, 0⟩) ∧
    0 < Real.sqrt (sq_len (uncompress_pack (√2) ⟨0, 0, 11585, 11585, 11585, 0, 0, 0⟩)) ∧
    uncompress_packN Real.sqrt (√2) ⟨0, 0, 11585, 11585, 11585, 0, 0, 0⟩ =
      cq_normalize Real.sqrt (uncompress_pack (√2) ⟨0, 0, 11585, 11585, 11585, 0, 0, 0⟩) ∧
    sq_len (uncompress_packN Real.sqrt (√2) ⟨0, 0, 11585, 11585, 11585, 0, 0, 0⟩) = 1 :=
  uncompress_packN_unit (√2) ⟨0, 0, 11585, 11585, 11585, 0, 0, 0⟩ (by decide)

end RealClaims

section Evaluation

variable {α : Type} [LinearOrderedField α] [FloorRing α]

theorem quantize_eq (s v : α) (n : ℤ) (h1 : (n : α) ≤ v * (16384 * s) + 1 / 2)
    (h2 : v * (16384 * s) + 1 / 2 < n + 1) (r1 : -2147483648 ≤ n) (r2 : n ≤ 2147483647) :
    quantize s v = n := by
  have h : ⌊v * (16384 * s) + 1 / 2⌋ = n := Int.floor_eq_iff.mpr ⟨h1, h2⟩
  rw [quantize_eq_floor _ _ (by rw [h]; exact r1) (by rw [h]; exact r2), h]

theorem compress_pack_eq (s : α) (q : cqQuaternion α) (L : Fin 4) (na nb nc : ℤ)
    (hL : findLargest (quatOf q) = L) (ha : quantize s (quatOf q (Mapping L 0)) = na)
    (hb : quantize s (quatOf q (Mapping L 1)) = nb)
    (hc : quantize s (quatOf q (Mapping L 2)) = nc) :
    compress_pack s q =
      { largest := L.val % 4
        sign := if quatOf q L < 0 then 1 else 0
        a := lowBits (clampQ na)
        b := lowBits (clampQ nb)
        c := lowBits (clampQ nc)
        sign_a := if clampQ na < 0 then 1 else 0
        sign_b := if clampQ nb < 0 then 1 else 0
        sign_c := if clampQ nc < 0 then 1 else 0 } := by
  subst hL ha hb hc
  rfl

end Evaluation

section RealEvaluation

open Real

theorem sqrt_two_gt : (1.41421 : ℝ) < √2 := Real.lt_sqrt_of_sq_lt (by norm_num)

theorem sqrt_two_lt : √2 < (1.41422 : ℝ) := by
  rw [Real.sqrt_lt' (by norm_num)]
  norm_num

theorem findLargest_neg_example :
    findLargest (quatOf (⟨4 / 5, -3 / 5, 0, 0⟩ : cqQuaternion ℝ)) = 0 := by
  have a1 : |(4 / 5 : ℝ)| = 4 / 5 := abs_of_pos (by norm_num)
  have a2 : |(-3 / 5 : ℝ)| = 3 / 5 := by rw [abs_of_neg (by norm_num)]; norm_num
  have h := findLargest_lowest (quatOf (⟨4 / 5, -3 / 5, 0, 0⟩ : cqQuaternion ℝ)) 0
    (by intro j; fin_cases j <;> simp [quatOf, a1, a2] <;> norm_num)
  exact Fin.le_zero_iff.mp h

theorem quantize_neg_example : quantize (√2) (-3 / 5 : ℝ) = -13902 := by
  have h1 := sqrt_two_gt
  have h2 := sqrt_two_lt
  refine quantize_eq _ _ _ ?_ ?_ (by norm_num) (by norm_num) <;> push_cast <;> linarith

theorem compress_pack_neg_example :
    compress_pack (√2) (⟨4 / 5, -3 / 5, 0, 0⟩ : cqQuaternion ℝ) = ⟨0, 0, 2482, 0, 0, 1, 0, 0⟩ := by
  obtain ⟨⟨m0, m1, m2⟩, -, -, -⟩ := Mapping_rows
  obtain ⟨qx, qy, qz, qw⟩ := quatOf_apply (⟨4 / 5, -3 / 5, 0, 0⟩ : cqQuaternion ℝ)
  rw [compress_pack_eq (√2) _ 0 (-13902) 0 0 findLargest_neg_example
    (by rw [m0, qy]; exact quantize_neg_example) (by rw [m1, qz]; exact quantize_zero _)
    (by rw [m2, qw]; exact quantize_zero _)]
  have e1 : lowBits (clampQ (-13902)) = 2482 := by decide
  have e2 : lowBits (clampQ 0) = 0 := by decide
  have e3 : clampQ (-13902) < 0 := by decide
  have e4 : ¬ clampQ 0 < 0 := by decide
  rw [e1, e2, if_pos e3, if_neg e4, qx]
  norm_num

end RealEvaluation

section NegativeComponent

open Real

/-- C5 at the input `q = (4/5, -3/5, 0, 0)`: the scan finds index 0, the first stored
component is `y = -3/5`, its clamped quantised value is `n = -13902` with `|n| = 13902`,
and the stored field `a` is 2482 (the residue of `n` modulo 16384), with `sign_a = 1`. -/
theorem stored_field_is_not_magnitude :
    (compress_pack (√2) (⟨4 / 5, -3 / 5, 0, 0⟩ : cqQuaternion ℝ)).largest = 0 ∧
    clamp (-16384) (quantize (√2) (-3 / 5 : ℝ)) 16384 = -13902 ∧
    (compress_pack (√2) (⟨4 / 5, -3 / 5, 0, 0⟩ : cqQuaternion ℝ)).a = 2482 ∧
    (compress_pack (√2) (⟨4 / 5, -3 / 5, 0, 0⟩ : cqQuaternion ℝ)).sign_a = 1 ∧
    (compress_pack (√2) (⟨4 / 5, -3 / 5, 0, 0⟩ : cqQuaternion ℝ)).a ≠
      (clamp (-16384) (quantize (√2) (-3 / 5 : ℝ)) 16384).natAbs := by
  rw [compress_pack_neg_example, quantize_neg_example]
  decide

/-- C2 at the unit quaternion `q = (4/5, -3/5, 0, 0)`: the scan finds index 0, and the
component of `uncompress_pack(compress_pack(q))` at index 1 is `-2482/(16384·√2)`, which
differs from `q.y = -3/5` by more than the quantisation step `1/(16384·√2)` (by more than
0.49). -/
theorem negative_component_roundtrip_fails :
    sq_len (⟨4 / 5, -3 / 5, 0, 0⟩ : cqQuaternion ℝ) = 1 ∧
    (compress_pack (√2) (⟨4 / 5, -3 / 5, 0, 0⟩ : cqQuaternion ℝ)).largest = 0 ∧
    (uncompress_pack (√2) (compress_pack (√2) (⟨4 / 5, -3 / 5, 0, 0⟩ : cqQuaternion ℝ))).y =
      -(2482 * (1 / (16384 * √2))) ∧
    1 / (16384 * √2) <
      |(uncompress_pack (√2) (compress_pack (√2) (⟨4 / 5, -3 / 5, 0, 0⟩ : cqQuaternion ℝ))).y
        - (-3 / 5)| ∧
    (49 / 100 : ℝ) <
      |(uncompress_pack (√2) (compress_pack (√2) (⟨4 / 5, -3 / 5, 0, 0⟩ : cqQuaternion ℝ))).y
        - (-3 / 5)| := by
  have h1 := sqrt_two_gt
  have hs : (0 : ℝ) < √2 := by linarith
  have hy : (uncompress_pack (√2) (⟨0, 0, 2482, 0, 0, 1, 0, 0⟩ : CompressQuat)).y =
      -(2482 * (1 / (16384 * √2))) := by
    have e := unpackArray_map0 (√2) ⟨0, 0, 2482, 0, 0, 1, 0, 0⟩
    rw [← quatOf_uncompress_pack] at e
    have m : Mapping (Fin.ofNat 0) 0 = 1 := Mapping_rows.1.1
    simp only [m] at e
    rw [(quatOf_apply _).2.1] at e
    rw [e]
    simp [dequantize]
  have hu : (1 : ℝ) / (16384 * √2) < 1 / 23000 := by
    rw [div_lt_div_iff₀ (by positivity) (by norm_num)]
    linarith
  have hu0 : (0 : ℝ) < 1 / (16384 * √2) := by positivity
  rw [compress_pack_neg_example, hy]
  refine ⟨by norm_num [sq_len], rfl, rfl, ?_, ?_⟩
  · rw [lt_abs]
    left
    linarith
  · rw [lt_abs]
    left
    linarith

end NegativeComponent

section Angle

open Real

theorem arccos_antitone {x y : ℝ} (h : x ≤ y) : Real.arccos y ≤ Real.arccos x := by
  have := Real.monotone_arcsin h
  unfold Real.arccos
  linarith

theorem cq_compare_false_of_lt (a b : cqQuaternion ℝ) (t : ℝ) (ht : t ≤ 2)
    (h : |diff_w a b| < 1 - t ^ 2 / 8) : cq_compare Real.arccos a b t = false := by
  unfold cq_compare
  simp only [decide_eq_false_iff_not, not_le]
  have hx1 : |diff_w a b| ≤ 1 := by nlinarith [sq_nonneg t]
  have hac := Real.arccos_nonneg |diff_w a b|
  rw [min_eq_left hx1, abs_of_nonneg (by linarith)]
  by_contra hc
  push_neg at hc
  have h1 : Real.arccos |diff_w a b| ≤ t / 2 := by linarith
  have h2 : Real.cos (t / 2) ≤ Real.cos (Real.arccos |diff_w a b|) :=
    Real.cos_le_cos_of_nonneg_of_le_pi hac (by linarith [Real.pi_gt_three]) h1
  rw [Real.cos_arccos (by linarith [abs_nonneg (diff_w a b)]) hx1] at h2
  have h3 := Real.one_sub_sq_div_two_le_cos (x := t / 2)
  nlinarith

theorem cq_compare_true_of_le (a b : cqQuaternion ℝ) (t : ℝ) (ht0 : 0 ≤ t) (ht : t ≤ 2)
    (h : Real.cos (t / 2) ≤ |diff_w a b|) : cq_compare Real.arccos a b t = true := by
  unfold cq_compare
  simp only [decide_eq_true_eq]
  have hc : Real.cos (t / 2) ≤ min |diff_w a b| 1 := le_min h (Real.cos_le_one _)
  have h1 := arccos_antitone hc
  rw [Real.arccos_cos (by linarith) (by linarith [Real.pi_gt_three])] at h1
  have hac := Real.arccos_nonneg (min |diff_w a b| 1)
  rw [abs_of_nonneg (by linarith)]
  linarith

end Angle

section RoundTripAngle

open Real

theorem cos_bound_0335 : Real.cos (0.67 / 2) ≤ (0.9446 : ℝ) := by
  have h := Real.cos_bound (x := 0.67 / 2) (by rw [abs_le]; constructor <;> norm_num)
  rw [abs_le] at h
  have e : |(0.67 / 2 : ℝ)| = 0.335 := by rw [abs_of_pos (by norm_num)]; norm_num
  rw [e] at h
  have := h.2
  norm_num at this ⊢
  linarith

theorem poly_bound (m : ℝ) (h1 : 1 / 2 ≤ m) (h2 : m ≤ 1) :
    0.9446 ^ 2 * (2 + 0.00014 - m * m) ≤ (m + 1 - m * m - 0.00007) ^ 2 := by
  have hw : 0 ≤ (m - 1 / 2) * (1 - m) := mul_nonneg (by linarith) (by linarith)
  nlinarith [mul_nonneg hw (by linarith : (0 : ℝ) ≤ 1 - m), sq_nonneg ((m - 1 / 2) * (1 - m))]

theorem prod_lower (v u h : ℝ) (p : 0 ≤ v) (v1 : v ≤ 1) (a : -h ≤ u - v) (h0 : 0 ≤ h) :
    v * v - h ≤ v * u := by
  nlinarith [mul_nonneg p (by linarith : (0 : ℝ) ≤ u - v + h),
    mul_nonneg h0 (by linarith : (0 : ℝ) ≤ 1 - v)]

theorem sq_upper (v u h : ℝ) (p : 0 ≤ v) (v1 : v ≤ 1) (a : -h ≤ u - v) (b : u - v ≤ h)
    (h0 : 0 ≤ h) : u * u ≤ v * v + 2 * h + h * h := by
  nlinarith [mul_nonneg (by linarith : (0 : ℝ) ≤ v + h - u) (by linarith : (0 : ℝ) ≤ v + h + u),
    mul_nonneg h0 (by linarith : (0 : ℝ) ≤ 1 - v)]

theorem largest_bounds (m v1 v2 v3 : ℝ) (hq : m * m + v1 * v1 + v2 * v2 + v3 * v3 = 1)
    (p1 : 0 ≤ v1) (p2 : 0 ≤ v2) (p3 : 0 ≤ v3) (m1 : v1 ≤ m) (m2 : v2 ≤ m) (m3 : v3 ≤ m) :
    1 / 2 ≤ m ∧ m ≤ 1 := by
  have hm0 : 0 ≤ m := le_trans p1 m1
  have s1 := mul_self_le_mul_self p1 m1
  have s2 := mul_self_le_mul_self p2 m2
  have s3 := mul_self_le_mul_self p3 m3
  constructor
  · by_contra hc
    push_neg at hc
    nlinarith
  · by_contra hc
    push_neg at hc
    nlinarith [mul_self_nonneg v1, mul_self_nonneg v2, mul_self_nonneg v3]

theorem core_ineq (m v1 v2 v3 u1 u2 u3 h : ℝ)
    (hq : m * m + v1 * v1 + v2 * v2 + v3 * v3 = 1)
    (p1 : 0 ≤ v1) (p2 : 0 ≤ v2) (p3 : 0 ≤ v3) (m1 : v1 ≤ m) (m2 : v2 ≤ m) (m3 : v3 ≤ m)
    (e1 : |u1 - v1| ≤ h) (e2 : |u2 - v2| ≤ h) (e3 : |u3 - v3| ≤ h) (hh : h ≤ 1 / 46000) :
    0.9446 * √(1 + u1 * u1 + u2 * u2 + u3 * u3) ≤ m + v1 * u1 + v2 * u2 + v3 * u3 := by
  obtain ⟨hmh, hm1⟩ := largest_bounds m v1 v2 v3 hq p1 p2 p3 m1 m2 m3
  have hh0 : 0 ≤ h := le_trans (abs_nonneg _) e1
  obtain ⟨a1, b1⟩ := abs_le.mp e1
  obtain ⟨a2, b2⟩ := abs_le.mp e2
  obtain ⟨a3, b3⟩ := abs_le.mp e3
  have A1 := prod_lower v1 u1 h p1 (by linarith) a1 hh0
  have A2 := prod_lower v2 u2 h p2 (by linarith) a2 hh0
  have A3 := prod_lower v3 u3 h p3 (by linarith) a3 hh0
  have B1 := sq_upper v1 u1 h p1 (by linarith) a1 b1 hh0
  have B2 := sq_upper v2 u2 h p2 (by linarith) a2 b2 hh0
  have B3 := sq_upper v3 u3 h p3 (by linarith) a3 b3 hh0
  have hA : m + 1 - m * m - 0.00007 ≤ m + v1 * u1 + v2 * u2 + v3 * u3 := by
    norm_num at hh ⊢
    linarith
  have hB : 1 + u1 * u1 + u2 * u2 + u3 * u3 ≤ 2 + 0.00014 - m * m := by
    have : h * h ≤ h * (1 / 46000) := mul_le_mul_of_nonneg_left hh hh0
    norm_num at hh this ⊢
    linarith
  have hg : 0 ≤ m + 1 - m * m - 0.00007 := by
    have : 0 ≤ m * (1 - m) := mul_nonneg (by linarith) (by linarith)
    norm_num
    linarith
  have hp := poly_bound m hmh hm1
  have hsq : (m + 1 - m * m - 0.00007) ^ 2 ≤ (m + v1 * u1 + v2 * u2 + v3 * u3) ^ 2 :=
    pow_le_pow_left₀ hg hA 2
  have hpos : 0 ≤ m + v1 * u1 + v2 * u2 + v3 * u3 := le_trans hg hA
  have hle : √(1 + u1 * u1 + u2 * u2 + u3 * u3) ≤
      (m + v1 * u1 + v2 * u2 + v3 * u3) / 0.9446 := by
    rw [Real.sqrt_le_left (by positivity)]
    rw [div_pow, le_div_iff₀ (by norm_num)]
    nlinarith
  rw [le_div_iff₀ (by norm_num)] at hle
  linarith

end RoundTripAngle

section RoundTripClaim

open Real

theorem mul_sign_eq_abs (x : ℝ) : x * (if x < 0 then -1 else 1) = |x| := by
  split_ifs with h
  · rw [abs_of_neg h]; ring
  · rw [abs_of_nonneg (not_lt.mp h)]; ring

theorem step_bound : (1 : ℝ) / (2 * (16384 * √2)) ≤ 1 / 46000 := by
  have h := sqrt_two_gt
  rw [div_le_div_iff₀ (by positivity) (by norm_num)]
  linarith

/-- The dot product of a unit quaternion `q` with non-negative stored components below
the clamp bound and its decoded record, and the squared length of the decoded record, in
terms of `m = |q[L]|`, the stored components `v` and their read-back values. -/
theorem roundtrip_shape (q : cqQuaternion ℝ)
    (hnn : ∀ k : Fin 3, 0 ≤ quatOf q (Mapping (findLargest (quatOf q)) k))
    (hlt : ∀ k : Fin 3,
      quatOf q (Mapping (findLargest (quatOf q)) k) * (16384 * √2) + 1 / 2 < 16384) :
    diff_w q (uncompress_pack (√2) (compress_pack (√2) q)) =
      |quatOf q (findLargest (quatOf q))|
      + quatOf q (Mapping (findLargest (quatOf q)) 0) *
          storedRoundTrip (√2) (quatOf q (Mapping (findLargest (quatOf q)) 0))
      + quatOf q (Mapping (findLargest (quatOf q)) 1) *
          storedRoundTrip (√2) (quatOf q (Mapping (findLargest (quatOf q)) 1))
      + quatOf q (Mapping (findLargest (quatOf q)) 2) *
          storedRoundTrip (√2) (quatOf q (Mapping (findLargest (quatOf q)) 2)) ∧
    sq_len (uncompress_pack (√2) (compress_pack (√2) q)) =
      1 + storedRoundTrip (√2) (quatOf q (Mapping (findLargest (quatOf q)) 0)) *
          storedRoundTrip (√2) (quatOf q (Mapping (findLargest (quatOf q)) 0))
      + storedRoundTrip (√2) (quatOf q (Mapping (findLargest (quatOf q)) 1)) *
          storedRoundTrip (√2) (quatOf q (Mapping (findLargest (quatOf q)) 1))
      + storedRoundTrip (√2) (quatOf q (Mapping (findLargest (quatOf q)) 2)) *
          storedRoundTrip (√2) (quatOf q (Mapping (findLargest (quatOf q)) 2)) ∧
    ∀ k : Fin 3, |storedRoundTrip (√2) (quatOf q (Mapping (findLargest (quatOf q)) k))
      - quatOf q (Mapping (findLargest (quatOf q)) k)| ≤ 1 / 46000 := by
  have hs : (0 : ℝ) < √2 := Real.sqrt_pos.mpr (by norm_num)
  refine ⟨?_, ?_, ?_⟩
  · rw [diff_w_split (findLargest (quatOf q)), unpack_pack_largest, unpack_pack_stored,
      unpack_pack_stored, unpack_pack_stored, mul_sign_eq_abs]
  · rw [sq_len_split (findLargest (quatOf q)), unpack_pack_largest, unpack_pack_stored,
      unpack_pack_stored, unpack_pack_stored]
    split_ifs <;> ring
  · intro k
    exact le_trans (storedRoundTrip_nonneg (√2) hs _ (hnn k) (hlt k)).2.2 step_bound

end RoundTripClaim

section RoundTripBound

open Real

theorem quatOf_half (i : Fin 4) :
    quatOf (⟨1 / 2, 1 / 2, 1 / 2, 1 / 2⟩ : cqQuaternion ℝ) i = 1 / 2 := by
  fin_cases i <;> rfl

theorem half_below_clamp : (1 / 2 : ℝ) * (16384 * √2) + 1 / 2 < 16384 := by
  have h := sqrt_two_lt
  linarith

/-- C1 (amended): for every unit quaternion `q` whose three stored components (the ones
at the indices other than `largest`) are non-negative and satisfy
`v·16384·√2 + 1/2 < 16384`, the angle between `q` and
`uncompress_packN(compress_pack(q))` is at most 0.67 rad: `cq_compare` at tolerance 0.67
is true. -/
theorem roundtrip_angle_bound (q : cqQuaternion ℝ) (hq : sq_len q = 1)
    (hnn : ∀ k : Fin 3, 0 ≤ quatOf q (Mapping (findLargest (quatOf q)) k))
    (hlt : ∀ k : Fin 3,
      quatOf q (Mapping (findLargest (quatOf q)) k) * (16384 * √2) + 1 / 2 < 16384) :
    cq_compare Real.arccos q (uncompress_packN Real.sqrt (√2) (compress_pack (√2) q)) 0.67
      = true := by
  obtain ⟨hd, hl, he⟩ := roundtrip_shape q hnn hlt
  have hm : ∀ k : Fin 3, quatOf q (Mapping (findLargest (quatOf q)) k) ≤
      |quatOf q (findLargest (quatOf q))| := fun k =>
    le_trans (le_abs_self _) (findLargest_max (quatOf q) _)
  have hq' := sq_len_split (findLargest (quatOf q)) q
  rw [hq, ← abs_mul_abs_self (quatOf q (findLargest (quatOf q)))] at hq'
  have core := core_ineq _ _ _ _ _ _ _ _ hq'.symm (hnn 0) (hnn 1) (hnn 2) (hm 0) (hm 1) (hm 2)
    (he 0) (he 1) (he 2) le_rfl
  rw [← hl, ← hd] at core
  have hpos : 0 < √(sq_len (uncompress_pack (√2) (compress_pack (√2) q))) :=
    Real.sqrt_pos.mpr (lt_of_lt_of_le one_pos (one_le_sq_len_uncompress_pack _ _))
  apply cq_compare_true_of_le _ _ _ (by norm_num) (by norm_num)
  refine le_trans cos_bound_0335 (le_trans ?_ (le_abs_self _))
  unfold uncompress_packN
  rw [diff_w_cq_normalize, mul_one_div, le_div_iff₀ hpos]
  exact core

/-- C1 (amended) at `q = (1/2, 1/2, 1/2, 1/2)`. -/
theorem roundtrip_angle_bound_witness :
    cq_compare Real.arccos (⟨1 / 2, 1 / 2, 1 / 2, 1 / 2⟩ : cqQuaternion ℝ)
      (uncompress_packN Real.sqrt (√2)
        (compress_pack (√2) (⟨1 / 2, 1 / 2, 1 / 2, 1 / 2⟩ : cqQuaternion ℝ))) 0.67 = true :=
  roundtrip_angle_bound ⟨1 / 2, 1 / 2, 1 / 2, 1 / 2⟩ (by norm_num [sq_len])
    (fun k => by rw [quatOf_half]; norm_num)
    (fun k => by rw [quatOf_half]; exact half_below_clamp)

/-- C1 fails at the spec's scenario `q = (1/2, 1/2, 1/2, 1/2)`: `q` is a unit quaternion,
and `cq_compare(q, uncompress_packN(compress_pack(q)), t)` is false at the tolerance
`t = 0.0015` of the claim, and still false at `t = 0.66`. -/
theorem roundtrip_bound_fails :
    sq_len (⟨1 / 2, 1 / 2, 1 / 2, 1 / 2⟩ : cqQuaternion ℝ) = 1 ∧
    cq_compare Real.arccos (⟨1 / 2, 1 / 2, 1 / 2, 1 / 2⟩ : cqQuaternion ℝ)
      (uncompress_packN Real.sqrt (√2)
        (compress_pack (√2) (⟨1 / 2, 1 / 2, 1 / 2, 1 / 2⟩ : cqQuaternion ℝ))) 0.0015 = false ∧
    cq_compare Real.arccos (⟨1 / 2, 1 / 2, 1 / 2, 1 / 2⟩ : cqQuaternion ℝ)
      (uncompress_packN Real.sqrt (√2)
        (compress_pack (√2) (⟨1 / 2, 1 / 2, 1 / 2, 1 / 2⟩ : cqQuaternion ℝ))) 0.66 = false := by
  obtain ⟨hd, hl, he⟩ := roundtrip_shape (⟨1 / 2, 1 / 2, 1 / 2, 1 / 2⟩ : cqQuaternion ℝ)
    (fun k => by rw [quatOf_half]; norm_num)
    (fun k => by rw [quatOf_half]; exact half_below_clamp)
  simp only [quatOf_half] at hd hl he
  have he0 := he 0
  rw [abs_le] at he0
  obtain ⟨lo, hi⟩ := he0
  have habs : |(1 / 2 : ℝ)| = 1 / 2 := abs_of_pos (by norm_num)
  rw [habs] at hd
  generalize storedRoundTrip (√2) (1 / 2 : ℝ) = u at hd hl lo hi
  have hpos : 0 < √(sq_len (uncompress_pack (√2)
      (compress_pack (√2) (⟨1 / 2, 1 / 2, 1 / 2, 1 / 2⟩ : cqQuaternion ℝ)))) :=
    Real.sqrt_pos.mpr (lt_of_lt_of_le one_pos (one_le_sq_len_uncompress_pack _ _))
  have key : |diff_w (⟨1 / 2, 1 / 2, 1 / 2, 1 / 2⟩ : cqQuaternion ℝ)
      (uncompress_packN Real.sqrt (√2)
        (compress_pack (√2) (⟨1 / 2, 1 / 2, 1 / 2, 1 / 2⟩ : cqQuaternion ℝ)))| < 0.9455 := by
    unfold uncompress_packN
    rw [diff_w_cq_normalize, mul_one_div, hd]
    have hnum : (0 : ℝ) ≤ 1 / 2 + 1 / 2 * u + 1 / 2 * u + 1 / 2 * u := by linarith
    rw [abs_of_nonneg (div_nonneg hnum hpos.le), div_lt_iff₀ hpos, hl]
    have hlt : (1 / 2 + 1 / 2 * u + 1 / 2 * u + 1 / 2 * u) / 0.9455 <
        √(1 + u * u + u * u + u * u) := by
      rw [Real.lt_sqrt (by positivity), div_pow, div_lt_iff₀ (by norm_num)]
      nlinarith
    rw [div_lt_iff₀ (by norm_num)] at hlt
    linarith
  refine ⟨by norm_num [sq_len], ?_, ?_⟩
  · apply cq_compare_false_of_lt _ _ _ (by norm_num)
    refine lt_trans key ?_
    norm_num
  · apply cq_compare_false_of_lt _ _ _ (by norm_num)
    refine lt_trans key ?_
    norm_num

end RoundTripBound


section AlgebraClaims

variable {α : Type} [LinearOrderedField α]

theorem diff_w_comm (a b : cqQuaternion α) : diff_w a b = diff_w b a := by
  simp only [diff_w]
  ring

/-- C11: for every quaternion `q` with `x² + y² + z² + w² = 1`, both
`cq_mult(q, cq_conjugate(q))` and `cq_mult(cq_conjugate(q), q)` are the identity
`(0, 0, 0, 1)`. -/
theorem conjugate_is_inverse_on_unit (q : cqQuaternion α) (hq : sq_len q = 1) :
    cq_mult q (cq_conjugate q) = cq_identity ∧ cq_mult (cq_conjugate q) q = cq_identity := by
  unfold sq_len at hq
  constructor
  · simp only [cq_mult, cq_conjugate, cq_identity, cqQuaternion.mk.injEq]
    refine ⟨by ring, by ring, by ring, ?_⟩
    linear_combination hq
  · simp only [cq_mult, cq_conjugate, cq_identity, cqQuaternion.mk.injEq]
    refine ⟨by ring, by ring, by ring, ?_⟩
    linear_combination hq

/-- C11 at the unit quaternion `(3/5, 0, 4/5, 0)`. -/
theorem conjugate_is_inverse_on_unit_witness :
    cq_mult (⟨3 / 5, 0, 4 / 5, 0⟩ : cqQuaternion ℚ) (cq_conjugate ⟨3 / 5, 0, 4 / 5, 0⟩)
      = cq_identity ∧
    cq_mult (cq_conjugate (⟨3 / 5, 0, 4 / 5, 0⟩ : cqQuaternion ℚ)) ⟨3 / 5, 0, 4 / 5, 0⟩
      = cq_identity :=
  conjugate_is_inverse_on_unit ⟨3 / 5, 0, 4 / 5, 0⟩ (by norm_num [sq_len])

/-- C12: for all quaternions `a`, `b` and every tolerance `t`,
`cq_compare(a, b, t) = cq_compare(b, a, t)` (whatever function stands for `acosf`). -/
theorem cq_compare_symm (acosf : α → α) (a b : cqQuaternion α) (t : α) :
    cq_compare acosf a b t = cq_compare acosf b a t := by
  unfold cq_compare
  rw [diff_w_comm a b]

end AlgebraClaims

section RealAlgebraClaims

open Real

/-- C13: for every quaternion `q` with non-zero norm, over the reals,
`cq_normalize(q)` has squared norm exactly 1, `cq_isNormalize` holds for it, and
normalising it again changes nothing. -/
theorem cq_normalize_idempotent (q : cqQuaternion ℝ) (hq : sq_len q ≠ 0) :
    sq_len (cq_normalize Real.sqrt q) = 1 ∧
    cq_isNormalize (cq_normalize Real.sqrt q) = true ∧
    cq_normalize Real.sqrt (cq_normalize Real.sqrt q) = cq_normalize Real.sqrt q := by
  have hnn : 0 ≤ sq_len q := by
    unfold sq_len
    nlinarith [mul_self_nonneg q.x, mul_self_nonneg q.y, mul_self_nonneg q.z,
      mul_self_nonneg q.w]
  have h1 := sq_len_cq_normalize q (lt_of_le_of_ne hnn (Ne.symm hq))
  refine ⟨h1, ?_, ?_⟩
  · unfold cq_isNormalize cq_NormalizationToleranceSq
    rw [h1]
    simp
  · generalize cq_normalize Real.sqrt q = n at h1
    unfold cq_normalize
    simp only [h1, Real.sqrt_one]
    cases n
    simp

/-- C13 at `q = (1, 1, 1, 1)`. -/
theorem cq_normalize_idempotent_witness :
    sq_len (cq_normalize Real.sqrt (⟨1, 1, 1, 1⟩ : cqQuaternion ℝ)) = 1 ∧
    cq_isNormalize (cq_normalize Real.sqrt (⟨1, 1, 1, 1⟩ : cqQuaternion ℝ)) = true ∧
    cq_normalize Real.sqrt (cq_normalize Real.sqrt (⟨1, 1, 1, 1⟩ : cqQuaternion ℝ)) =
      cq_normalize Real.sqrt (⟨1, 1, 1, 1⟩ : cqQuaternion ℝ) :=
  cq_normalize_idempotent ⟨1, 1, 1, 1⟩ (by norm_num [sq_len])

/-- C18: for all quaternions `a` and `b`, the value `diff_w` used by `cq_compare` is the
`w` component of `cq_mult(cq_conjugate(a), b)`, and `cq_compare(a, b, t)` is true exactly
when `2·acos(min(|w|, 1)) ≤ t` for that component `w`. -/
theorem cq_compare_dot_shortcut (a b : cqQuaternion ℝ) (t : ℝ) :
    diff_w a b = (cq_mult (cq_conjugate a) b).w ∧
    (cq_compare Real.arccos a b t = true ↔
      2 * Real.arccos (min |(cq_mult (cq_conjugate a) b).w| 1) ≤ t) := by
  have h : diff_w a b = (cq_mult (cq_conjugate a) b).w := by
    simp only [diff_w, cq_mult, cq_conjugate]
    ring
  refine ⟨h, ?_⟩
  unfold cq_compare
  rw [← h]
  simp only [decide_eq_true_eq]
  rw [abs_of_nonneg (mul_nonneg (by norm_num) (Real.arccos_nonneg _))]

end RealAlgebraClaims

section QuantisationClaims

variable {α : Type} [LinearOrderedField α] [FloorRing α]

theorem floor_fits (x : α) (h1 : -2147483648 ≤ x) (h2 : x < 2147483648) :
    -2147483648 ≤ ⌊x⌋ ∧ ⌊x⌋ ≤ 2147483647 := by
  have a : (-2147483648 : ℤ) ≤ ⌊x⌋ := Int.le_floor.mpr (by push_cast; exact h1)
  have b : ⌊x⌋ < 2147483648 := Int.floor_lt.mpr (by push_cast; exact h2)
  exact ⟨a, by omega⟩

theorem clampQ_eq_quantizedSpec (s v : α) (h1 : -2147483648 ≤ ⌊v * (16384 * s) + 1 / 2⌋)
    (h2 : ⌊v * (16384 * s) + 1 / 2⌋ ≤ 2147483647) :
    clampQ (quantize s v) = quantizedSpec s v := by
  rw [quantize_eq_floor s v h1 h2]
  unfold clampQ clamp int16_cast quantizedSpec
  simp only
  split_ifs <;> omega

theorem lowBits_eq (l : ℤ) : lowBits l = (l % 16384).toNat := by
  unfold lowBits uint16_cast
  omega

theorem Mapping_ascending (L : Fin 4) : Mapping L 0 < Mapping L 1 ∧ Mapping L 1 < Mapping L 2 := by
  fin_cases L <;> decide

theorem sign_bit_eq_one_iff (p : Prop) [Decidable p] : (if p then 1 else 0 : ℕ) = 1 ↔ p := by
  split_ifs with h <;> simp [h]

/-- C15 (amended): reading float arithmetic as exact arithmetic, for every quaternion `q`
whose three stored components have a quantised value `⌊v·16384·cq_Sqrt2 + 1/2⌋` in the
range of `int32_t`: with `L` the index found by the scan (the field `largest`), the three
stored components are the ones at the indices other than `L`, in ascending order (the rows
of the table are `{1,2,3}`, `{0,2,3}`, `{0,1,3}`, `{0,1,2}`); for each of them, with
`n = max(-16384, min(16384, ⌊v·16384·cq_Sqrt2 + 1/2⌋))`, the stored field is `n mod 16384`
(the low 14 bits of the two's complement value) and the sign bit is 1 exactly when
`n < 0`. -/
theorem quantisation_as_specified (cq_Sqrt2 : α) (q : cqQuaternion α)
    (hfit : ∀ k : Fin 3,
      -2147483648 ≤ ⌊quatOf q (Mapping (findLargest (quatOf q)) k) * (16384 * cq_Sqrt2) + 1 / 2⌋ ∧
      ⌊quatOf q (Mapping (findLargest (quatOf q)) k) * (16384 * cq_Sqrt2) + 1 / 2⌋ ≤ 2147483647) :
    (compress_pack cq_Sqrt2 q).largest = (findLargest (quatOf q)).val ∧
    ((Mapping 0 0 = 1 ∧ Mapping 0 1 = 2 ∧ Mapping 0 2 = 3) ∧
      (Mapping 1 0 = 0 ∧ Mapping 1 1 = 2 ∧ Mapping 1 2 = 3) ∧
      (Mapping 2 0 = 0 ∧ Mapping 2 1 = 1 ∧ Mapping 2 2 = 3) ∧
      (Mapping 3 0 = 0 ∧ Mapping 3 1 = 1 ∧ Mapping 3 2 = 2)) ∧
    (∀ k, Mapping (findLargest (quatOf q)) k ≠ findLargest (quatOf q)) ∧
    (Mapping (findLargest (quatOf q)) 0 < Mapping (findLargest (quatOf q)) 1 ∧
      Mapping (findLargest (quatOf q)) 1 < Mapping (findLargest (quatOf q)) 2) ∧
    ((compress_pack cq_Sqrt2 q).a =
        (quantizedSpec cq_Sqrt2 (quatOf q (Mapping (findLargest (quatOf q)) 0)) % 16384).toNat ∧
      ((compress_pack cq_Sqrt2 q).sign_a = 1 ↔
        quantizedSpec cq_Sqrt2 (quatOf q (Mapping (findLargest (quatOf q)) 0)) < 0)) ∧
    ((compress_pack cq_Sqrt2 q).b =
        (quantizedSpec cq_Sqrt2 (quatOf q (Mapping (findLargest (quatOf q)) 1)) % 16384).toNat ∧
      ((compress_pack cq_Sqrt2 q).sign_b = 1 ↔
        quantizedSpec cq_Sqrt2 (quatOf q (Mapping (findLargest (quatOf q)) 1)) < 0)) ∧
    ((compress_pack cq_Sqrt2 q).c =
        (quantizedSpec cq_Sqrt2 (quatOf q (Mapping (findLargest (quatOf q)) 2)) % 16384).toNat ∧
      ((compress_pack cq_Sqrt2 q).sign_c = 1 ↔
        quantizedSpec cq_Sqrt2 (quatOf q (Mapping (findLargest (quatOf q)) 2)) < 0)) := by
  have e := fun k => clampQ_eq_quantizedSpec cq_Sqrt2 _ (hfit k).1 (hfit k).2
  refine ⟨compress_pack_largest _ _, Mapping_rows, fun k => Mapping_ne _ k, Mapping_ascending _,
    ⟨?_, ?_⟩, ⟨?_, ?_⟩, ⟨?_, ?_⟩⟩
  · rw [← e 0, ← lowBits_eq]; rfl
  · rw [← e 0]; exact sign_bit_eq_one_iff _
  · rw [← e 1, ← lowBits_eq]; rfl
  · rw [← e 1]; exact sign_bit_eq_one_iff _
  · rw [← e 2, ← lowBits_eq]; rfl
  · rw [← e 2]; exact sign_bit_eq_one_iff _

end QuantisationClaims

section ValidInput

open Real

theorem sq_add_sq_le_sq_len (q : cqQuaternion ℝ) (L i : Fin 4) (hi : i ≠ L) :
    quatOf q i * quatOf q i + quatOf q L * quatOf q L ≤ sq_len q := by
  obtain ⟨k, rfl⟩ := Mapping_cover L i hi
  rw [sq_len_split L q]
  fin_cases k <;> simp only [Fin.zero_eta, Fin.mk_one, Fin.reduceFinMk] <;>
    nlinarith [mul_self_nonneg (quatOf q (Mapping L 0)), mul_self_nonneg (quatOf q (Mapping L 1)),
      mul_self_nonneg (quatOf q (Mapping L 2))]

theorem abs_mul_sqrt_two_le_one (v m : ℝ) (hv : |v| ≤ |m|) (h : v * v + m * m ≤ 1) :
    |v| * √2 ≤ 1 := by
  have h2 : √2 * √2 = 2 := Real.mul_self_sqrt (by norm_num)
  have hs : (0 : ℝ) ≤ √2 := Real.sqrt_nonneg 2
  have hvv : |v| * |v| = v * v := abs_mul_abs_self v
  have hmm : |m| * |m| = m * m := abs_mul_abs_self m
  have hle : |v| * |v| ≤ |m| * |m| := mul_self_le_mul_self (abs_nonneg v) hv
  by_contra hc
  push_neg at hc
  have hpos : 0 ≤ |v| * √2 := mul_nonneg (abs_nonneg v) hs
  have : 1 * 1 < (|v| * √2) * (|v| * √2) := mul_self_lt_mul_self (by norm_num) hc
  have e : (|v| * √2) * (|v| * √2) = 2 * (v * v) := by
    calc (|v| * √2) * (|v| * √2) = (|v| * |v|) * (√2 * √2) := by ring
      _ = 2 * (v * v) := by rw [hvv, h2]; ring
  linarith

/-- C16: for every quaternion `q` with `x² + y² + z² + w² ≤ 1`, with `L` the index found by
the scan (the field `largest`), each component `v` at an index other than `L` has
`|v| ≤ 1/√2`, its quantised value `⌊v·16384·√2 + 1/2⌋` lies in `[-16384, 16384]`, and the
clamp of `compress_pack` returns it unchanged. -/
theorem clamp_inactive_on_valid_input (q : cqQuaternion ℝ) (hq : sq_len q ≤ 1) (i : Fin 4)
    (hi : i ≠ findLargest (quatOf q)) :
    (compress_pack (√2) q).largest = (findLargest (quatOf q)).val ∧
    |quatOf q i| ≤ 1 / √2 ∧
    quantize (√2) (quatOf q i) = ⌊quatOf q i * (16384 * √2) + 1 / 2⌋ ∧
    -16384 ≤ quantize (√2) (quatOf q i) ∧ quantize (√2) (quatOf q i) ≤ 16384 ∧
    clamp (-16384) (quantize (√2) (quatOf q i)) 16384 = quantize (√2) (quatOf q i) ∧
    clampQ (quantize (√2) (quatOf q i)) = quantize (√2) (quatOf q i) := by
  have hs : (0 : ℝ) < √2 := Real.sqrt_pos.mpr (by norm_num)
  have h1 := abs_mul_sqrt_two_le_one (quatOf q i) (quatOf q (findLargest (quatOf q)))
    (findLargest_max _ _) (le_trans (sq_add_sq_le_sq_len q _ i hi) hq)
  obtain ⟨lo, hi'⟩ := abs_le.mp (by rwa [← abs_of_nonneg hs.le, ← abs_mul] at h1 :
    |quatOf q i * √2| ≤ 1)
  have flo : -16384 ≤ ⌊quatOf q i * (16384 * √2) + 1 / 2⌋ := by
    apply Int.le_floor.mpr
    push_cast
    linarith
  have fhi : ⌊quatOf q i * (16384 * √2) + 1 / 2⌋ ≤ 16384 := by
    have : ⌊quatOf q i * (16384 * √2) + 1 / 2⌋ < 16385 := by
      apply Int.floor_lt.mpr
      push_cast
      linarith
    omega
  have hqf := quantize_eq_floor (√2) (quatOf q i) (by omega) (by omega)
  have hlo : -16384 ≤ quantize (√2) (quatOf q i) := by rw [hqf]; exact flo
  have hhi : quantize (√2) (quatOf q i) ≤ 16384 := by rw [hqf]; exact fhi
  refine ⟨compress_pack_largest _ _, ?_, hqf, hlo, hhi, ?_, clampQ_of_mem _ hlo hhi⟩
  · rwa [le_div_iff₀ hs]
  · unfold clamp
    simp only
    split_ifs <;> omega

/-- C16 at the unit quaternion `(1/2, 1/2, 1/2, 1/2)` and the index 1. -/
theorem clamp_inactive_on_valid_input_witness :
    (compress_pack (√2) (⟨1 / 2, 1 / 2, 1 / 2, 1 / 2⟩ : cqQuaternion ℝ)).largest =
      (findLargest (quatOf (⟨1 / 2, 1 / 2, 1 / 2, 1 / 2⟩ : cqQuaternion ℝ))).val ∧
    |quatOf (⟨1 / 2, 1 / 2, 1 / 2, 1 / 2⟩ : cqQuaternion ℝ) 1| ≤ 1 / √2 ∧
    quantize (√2) (quatOf (⟨1 / 2, 1 / 2, 1 / 2, 1 / 2⟩ : cqQuaternion ℝ) 1) =
      ⌊quatOf (⟨1 / 2, 1 / 2, 1 / 2, 1 / 2⟩ : cqQuaternion ℝ) 1 * (16384 * √2) + 1 / 2⌋ ∧
    -16384 ≤ quantize (√2) (quatOf (⟨1 / 2, 1 / 2, 1 / 2, 1 / 2⟩ : cqQuaternion ℝ) 1) ∧
    quantize (√2) (quatOf (⟨1 / 2, 1 / 2, 1 / 2, 1 / 2⟩ : cqQuaternion ℝ) 1) ≤ 16384 ∧
    clamp (-16384) (quantize (√2) (quatOf (⟨1 / 2, 1 / 2, 1 / 2, 1 / 2⟩ : cqQuaternion ℝ) 1))
      16384 = quantize (√2) (quatOf (⟨1 / 2, 1 / 2, 1 / 2, 1 / 2⟩ : cqQuaternion ℝ) 1) ∧
    clampQ (quantize (√2) (quatOf (⟨1 / 2, 1 / 2, 1 / 2, 1 / 2⟩ : cqQuaternion ℝ) 1)) =
      quantize (√2) (quatOf (⟨1 / 2, 1 / 2, 1 / 2, 1 / 2⟩ : cqQuaternion ℝ) 1) :=
  clamp_inactive_on_valid_input ⟨1 / 2, 1 / 2, 1 / 2, 1 / 2⟩ (by norm_num [sq_len]) 1
    (by
      have h := findLargest_lowest (quatOf (⟨1 / 2, 1 / 2, 1 / 2, 1 / 2⟩ : cqQuaternion ℝ)) 0
        (fun j => by rw [quatOf_half, quatOf_half])
      rw [Fin.le_zero_iff.mp h]
      decide)

end ValidInput

section Degenerate

open Real

theorem quatOf_cq_normalize (sqrtf : ℝ → ℝ) (p : cqQuaternion ℝ) (i : Fin 4) :
    quatOf (cq_normalize sqrtf p) i = quatOf p i * (1 / sqrtf (sq_len p)) := by
  fin_cases i <;> rfl

theorem dequantize_zero (s : ℝ) : dequantize s 0 0 = 0 := by
  simp [dequantize]

/-- C17 (amended): reading float arithmetic as exact arithmetic, when every component `v`
of `q` satisfies `-1/2 ≤ v·16384·cq_Sqrt2 < 1/2` (whatever the value of the constant),
`compress_pack(q)` has `a = b = c = 0` and
`sign_a = sign_b = sign_c = 0`; the squared norm of the decoded record is 1, so
`uncompress_packN` divides by 1, and its result has -1 or 1 (by the sign of `q[L]`) at the
index `L` found by the scan and 0 at the other three indices.  For the zero quaternion the
record is all zero (`largest = 0`, `sign = 0`). -/
theorem degenerate_input_well_defined (cq_Sqrt2 : ℝ) (q : cqQuaternion ℝ)
    (h : ∀ i : Fin 4, -(1 / 2) ≤ quatOf q i * (16384 * cq_Sqrt2) ∧
      quatOf q i * (16384 * cq_Sqrt2) < 1 / 2) :
    (compress_pack cq_Sqrt2 q).largest = (findLargest (quatOf q)).val ∧
    ((compress_pack cq_Sqrt2 q).a = 0 ∧ (compress_pack cq_Sqrt2 q).b = 0 ∧
      (compress_pack cq_Sqrt2 q).c = 0 ∧ (compress_pack cq_Sqrt2 q).sign_a = 0 ∧
      (compress_pack cq_Sqrt2 q).sign_b = 0 ∧ (compress_pack cq_Sqrt2 q).sign_c = 0) ∧
    √(sq_len (uncompress_pack cq_Sqrt2 (compress_pack cq_Sqrt2 q))) = 1 ∧
    quatOf (uncompress_packN Real.sqrt cq_Sqrt2 (compress_pack cq_Sqrt2 q))
      (findLargest (quatOf q)) = (if quatOf q (findLargest (quatOf q)) < 0 then -1 else 1) ∧
    (∀ i : Fin 4, i ≠ findLargest (quatOf q) →
      quatOf (uncompress_packN Real.sqrt cq_Sqrt2 (compress_pack cq_Sqrt2 q)) i = 0) ∧
    compress_pack cq_Sqrt2 (⟨0, 0, 0, 0⟩ : cqQuaternion ℝ) = ⟨0, 0, 0, 0, 0, 0, 0, 0⟩ := by
  have hq0 : ∀ i : Fin 4, quantize cq_Sqrt2 (quatOf q i) = 0 := fun i =>
    quantize_eq _ _ 0 (by push_cast; linarith [(h i).1]) (by push_cast; linarith [(h i).2])
      (by norm_num) (by norm_num)
  have e1 : lowBits (clampQ 0) = 0 := by decide
  have e2 : ¬ clampQ 0 < 0 := by decide
  have hrec := compress_pack_eq cq_Sqrt2 q _ 0 0 0 rfl (hq0 _) (hq0 _) (hq0 _)
  rw [e1, if_neg e2] at hrec
  have hst : ∀ k : Fin 3, quatOf (uncompress_pack cq_Sqrt2 (compress_pack cq_Sqrt2 q))
      (Mapping (findLargest (quatOf q)) k) = 0 := by
    intro k
    rw [unpack_pack_stored]
    unfold storedRoundTrip
    simp only [hq0, e1, if_neg e2, dequantize_zero]
  have hlen : sq_len (uncompress_pack cq_Sqrt2 (compress_pack cq_Sqrt2 q)) = 1 := by
    rw [sq_len_split (findLargest (quatOf q)), hst, hst, hst, unpack_pack_largest]
    split_ifs <;> ring
  have hsq : √(sq_len (uncompress_pack cq_Sqrt2 (compress_pack cq_Sqrt2 q))) = 1 := by
    rw [hlen, Real.sqrt_one]
  refine ⟨compress_pack_largest _ _, ?_, hsq, ?_, ?_, ?_⟩
  · rw [hrec]
    exact ⟨rfl, rfl, rfl, rfl, rfl, rfl⟩
  · unfold uncompress_packN
    rw [quatOf_cq_normalize, hsq, unpack_pack_largest]
    simp
  · intro i hi
    obtain ⟨k, rfl⟩ := Mapping_cover _ i hi
    unfold uncompress_packN
    rw [quatOf_cq_normalize, hst]
    simp
  · have hL : findLargest (quatOf (⟨0, 0, 0, 0⟩ : cqQuaternion ℝ)) = 0 := by
      simp [findLargest, scanStep, quatOf]
    have hz : ∀ i : Fin 4, quatOf (⟨0, 0, 0, 0⟩ : cqQuaternion ℝ) i = 0 := by
      intro i; fin_cases i <;> rfl
    rw [compress_pack_eq cq_Sqrt2 _ 0 0 0 0 hL (by rw [hz]; exact quantize_zero _)
      (by rw [hz]; exact quantize_zero _) (by rw [hz]; exact quantize_zero _), e1, if_neg e2, hz]
    simp

/-- C17 (amended) at the quaternion `(0, -1/100000, 0, 0)` with the constant `√2`. -/
theorem degenerate_input_well_defined_witness :
    (compress_pack (√2) (⟨0, -1 / 100000, 0, 0⟩ : cqQuaternion ℝ)).a = 0 ∧
    quatOf (uncompress_packN Real.sqrt (√2)
      (compress_pack (√2) (⟨0, -1 / 100000, 0, 0⟩ : cqQuaternion ℝ)))
      (findLargest (quatOf (⟨0, -1 / 100000, 0, 0⟩ : cqQuaternion ℝ))) =
      (if quatOf (⟨0, -1 / 100000, 0, 0⟩ : cqQuaternion ℝ)
        (findLargest (quatOf (⟨0, -1 / 100000, 0, 0⟩ : cqQuaternion ℝ))) < 0 then -1 else 1) := by
  have h1 := sqrt_two_gt
  have h2 := sqrt_two_lt
  have h := degenerate_input_well_defined (√2) ⟨0, -1 / 100000, 0, 0⟩ (by
    intro i
    obtain ⟨qx, qy, qz, qw⟩ := quatOf_apply (⟨0, -1 / 100000, 0, 0⟩ : cqQuaternion ℝ)
    fin_cases i <;> simp only [Fin.zero_eta, Fin.mk_one, Fin.reduceFinMk, qx, qy, qz, qw] <;>
      constructor <;> linarith)
  exact ⟨h.2.1.1, h.2.2.2.1⟩

end Degenerate

section Reencode

open Real

/-- C19: for every quaternion `q` and every index `i` other than the one found by the scan
(the field `largest`) with `q[i] ≥ 0` and `⌊q[i]·16384·√2 + 1/2⌋ ≤ 16383`, the component of
`uncompress_pack(compress_pack(q))` at `i` differs from `q[i]` by at most
`1/(2·16384·√2)`. -/
theorem nonneg_component_half_step (q : cqQuaternion ℝ) (i : Fin 4)
    (hi : i ≠ findLargest (quatOf q)) (h0 : 0 ≤ quatOf q i)
    (hn : ⌊quatOf q i * (16384 * √2) + 1 / 2⌋ ≤ 16383) :
    (compress_pack (√2) q).largest = (findLargest (quatOf q)).val ∧
    |quatOf (uncompress_pack (√2) (compress_pack (√2) q)) i - quatOf q i| ≤
      1 / (2 * (16384 * √2)) := by
  have hs : (0 : ℝ) < √2 := Real.sqrt_pos.mpr (by norm_num)
  have hlt : quatOf q i * (16384 * √2) + 1 / 2 < 16384 := by
    have : ⌊quatOf q i * (16384 * √2) + 1 / 2⌋ < 16384 := by omega
    exact_mod_cast Int.floor_lt.mp this
  obtain ⟨k, rfl⟩ := Mapping_cover _ i hi
  refine ⟨compress_pack_largest _ _, ?_⟩
  rw [unpack_pack_stored]
  exact (storedRoundTrip_nonneg (√2) hs _ h0 hlt).2.2

/-- C19 at `q = (1/2, 1/2, 1/2, 1/2)` and the index 1. -/
theorem nonneg_component_half_step_witness :
    (compress_pack (√2) (⟨1 / 2, 1 / 2, 1 / 2, 1 / 2⟩ : cqQuaternion ℝ)).largest =
      (findLargest (quatOf (⟨1 / 2, 1 / 2, 1 / 2, 1 / 2⟩ : cqQuaternion ℝ))).val ∧
    |quatOf (uncompress_pack (√2)
        (compress_pack (√2) (⟨1 / 2, 1 / 2, 1 / 2, 1 / 2⟩ : cqQuaternion ℝ))) 1
      - quatOf (⟨1 / 2, 1 / 2, 1 / 2, 1 / 2⟩ : cqQuaternion ℝ) 1| ≤ 1 / (2 * (16384 * √2)) :=
  nonneg_component_half_step ⟨1 / 2, 1 / 2, 1 / 2, 1 / 2⟩ 1
    (by
      have h := findLargest_lowest (quatOf (⟨1 / 2, 1 / 2, 1 / 2, 1 / 2⟩ : cqQuaternion ℝ)) 0
        (fun j => by rw [quatOf_half, quatOf_half])
      rw [Fin.le_zero_iff.mp h]
      decide)
    (by rw [quatOf_half]; norm_num)
    (by
      rw [quatOf_half]
      have : ⌊(1 / 2 : ℝ) * (16384 * √2) + 1 / 2⌋ < 16384 :=
        Int.floor_lt.mpr (by exact_mod_cast half_below_clamp)
      omega)

theorem findLargest_unpack (r : CompressQuat) (ha : r.a ≤ 16383) (hb : r.b ≤ 16383)
    (hc : r.c ≤ 16383) :
    findLargest (quatOf (uncompress_pack (√2) r)) = Fin.ofNat r.largest := by
  have hs : (0 : ℝ) < √2 := Real.sqrt_pos.mpr (by norm_num)
  have hlt : 1 / √2 < (1 : ℝ) := by
    rw [div_lt_one hs]
    exact Real.lt_sqrt_of_sq_lt (by norm_num)
  by_contra hne
  have h1 := findLargest_max (quatOf (uncompress_pack (√2) r)) (Fin.ofNat r.largest)
  rw [quatOf_uncompress_pack] at h1 hne
  have h2 := unpackArray_other_le (√2) hs r ha hb hc _ hne
  rw [unpackArray_largest] at h1
  have h3 : |(if r.sign > 0 then (-1 : ℝ) else 1)| = 1 := by split_ifs <;> simp
  rw [h3] at h1
  linarith

theorem quantize_dequantize (a : ℕ) (ha : a ≤ 16383) :
    quantize (√2) (dequantize (√2) 0 a) = (a : ℤ) := by
  have hs : (0 : ℝ) < √2 := Real.sqrt_pos.mpr (by norm_num)
  have e : dequantize (√2) 0 a * (16384 * √2) = (a : ℝ) := by
    simp only [dequantize, gt_iff_lt, lt_self_iff_false, if_false]
    field_simp
  refine quantize_eq _ _ _ ?_ ?_ (by omega) (by omega)
  · rw [e]; push_cast; linarith
  · rw [e]; push_cast; linarith

/-- C20: for every record `r` with `largest ≤ 3`, `sign ≤ 1`, `a, b, c ≤ 16383` and
`sign_a = sign_b = sign_c = 0`, `compress_pack(uncompress_pack(r))` is `r`, field by
field. -/
theorem reencode_lossless (r : CompressQuat) (hL : r.largest ≤ 3) (hsg : r.sign ≤ 1)
    (ha : r.a ≤ 16383) (hb : r.b ≤ 16383) (hc : r.c ≤ 16383)
    (hsa : r.sign_a = 0) (hsb : r.sign_b = 0) (hsc : r.sign_c = 0) :
    compress_pack (√2) (uncompress_pack (√2) r) = r := by
  have hF := findLargest_unpack r ha hb hc
  have hv : (Fin.ofNat r.largest : Fin 4).val = r.largest := Nat.mod_eq_of_lt (by omega)
  have q0 := unpackArray_map0 (√2) r
  have q1 := unpackArray_map1 (√2) r
  have q2 := unpackArray_map2 (√2) r
  have qL := unpackArray_largest (√2) r
  rw [← quatOf_uncompress_pack] at q0 q1 q2 qL
  rw [hsa] at q0
  rw [hsb] at q1
  rw [hsc] at q2
  rw [compress_pack_eq (√2) _ _ r.a r.b r.c hF (by rw [q0]; exact quantize_dequantize _ ha)
    (by rw [q1]; exact quantize_dequantize _ hb) (by rw [q2]; exact quantize_dequantize _ hc),
    qL, hv]
  have ca : ∀ n : ℕ, n ≤ 16383 → clampQ (n : ℤ) = n := fun n hn =>
    clampQ_of_mem _ (by omega) (by omega)
  have la : ∀ n : ℕ, n ≤ 16383 → lowBits (n : ℤ) = n := fun n hn => by
    have := lowBits_of_mem (n : ℤ) (by omega) (by omega)
    exact_mod_cast this
  rw [ca _ ha, ca _ hb, ca _ hc, la _ ha, la _ hb, la _ hc]
  have hm : r.largest % 4 = r.largest := Nat.mod_eq_of_lt (by omega)
  have hsign : (if (if r.sign > 0 then (-1 : ℝ) else 1) < 0 then 1 else 0) = r.sign := by
    split_ifs with h1 h2 h2
    · omega
    · norm_num at h2
    · norm_num at h2
    · omega
  rw [hm, hsign, if_neg (by omega), if_neg (by omega), if_neg (by omega)]
  cases r
  simp_all

/-- C20 at the record `largest = 2, sign = 1, a = 5, b = 16383, c = 0` with clear sign
bits. -/
theorem reencode_lossless_witness :
    compress_pack (√2) (uncompress_pack (√2) ⟨2, 1, 5, 16383, 0, 0, 0, 0⟩ : cqQuaternion ℝ) =
      ⟨2, 1, 5, 16383, 0, 0, 0, 0⟩ :=
  reencode_lossless ⟨2, 1, 5, 16383, 0, 0, 0, 0⟩ (by decide) (by decide) (by decide)
    (by decide) (by decide) rfl rfl rfl

end Reencode

section Euler

open Real

theorem cq_toEuler_regular {α : Type} [LinearOrderedField α] (atan2f : α → α → α)
    (asinf : α → α) (cq_Pi_2 : α) (q : cqQuaternion α)
    (h1 : ¬ eulerTest q > 499 / 1000 * sq_len q)
    (h2 : ¬ eulerTest q < -(499 / 1000) * sq_len q) :
    cq_toEuler atan2f asinf cq_Pi_2 q =
      { x := atan2f (2 * q.y * q.w - 2 * q.x * q.z) (q.x * q.x - q.y * q.y - q.z * q.z + q.w * q.w)
        y := asinf (2 * eulerTest q / sq_len q)
        z := atan2f (2 * q.x * q.w - 2 * q.y * q.z)
          (-(q.x * q.x) + q.y * q.y - q.z * q.z + q.w * q.w) } := by
  unfold cq_toEuler
  simp only
  unfold sq_len at h1 h2 ⊢
  rw [if_neg h1, if_neg h2]

theorem atan2_polar (r θ : ℝ) (hr : 0 < r) (h1 : -π < θ) (h2 : θ ≤ π) :
    atan2 (Real.sin θ * r) (Real.cos θ * r) = θ := by
  unfold atan2
  have e : (⟨Real.cos θ * r, Real.sin θ * r⟩ : ℂ) =
      (r : ℂ) * (Complex.cos θ + Complex.sin θ * Complex.I) := by
    apply Complex.ext
    · simp [← Complex.ofReal_cos, ← Complex.ofReal_sin]
      ring
    · simp [← Complex.ofReal_cos, ← Complex.ofReal_sin]
      ring
  rw [e]
  exact Complex.arg_mul_cos_add_sin_mul_I hr ⟨h1, h2⟩

/-- The quantities that `cq_toEuler` computes from `cq_fromEuler(e)`, in terms of the
angles of `e`. -/
theorem fromEuler_shape (e : cqFloat3 ℝ) :
    sq_len (cq_fromEuler Real.cos Real.sin e) = 1 ∧
    2 * eulerTest (cq_fromEuler Real.cos Real.sin e) = Real.sin e.y ∧
    2 * (cq_fromEuler Real.cos Real.sin e).y * (cq_fromEuler Real.cos Real.sin e).w
      - 2 * (cq_fromEuler Real.cos Real.sin e).x * (cq_fromEuler Real.cos Real.sin e).z
      = Real.sin e.x * Real.cos e.y ∧
    (cq_fromEuler Real.cos Real.sin e).x * (cq_fromEuler Real.cos Real.sin e).x
      - (cq_fromEuler Real.cos Real.sin e).y * (cq_fromEuler Real.cos Real.sin e).y
      - (cq_fromEuler Real.cos Real.sin e).z * (cq_fromEuler Real.cos Real.sin e).z
      + (cq_fromEuler Real.cos Real.sin e).w * (cq_fromEuler Real.cos Real.sin e).w
      = Real.cos e.x * Real.cos e.y ∧
    2 * (cq_fromEuler Real.cos Real.sin e).x * (cq_fromEuler Real.cos Real.sin e).w
      - 2 * (cq_fromEuler Real.cos Real.sin e).y * (cq_fromEuler Real.cos Real.sin e).z
      = Real.sin e.z * Real.cos e.y ∧
    -((cq_fromEuler Real.cos Real.sin e).x * (cq_fromEuler Real.cos Real.sin e).x)
      + (cq_fromEuler Real.cos Real.sin e).y * (cq_fromEuler Real.cos Real.sin e).y
      - (cq_fromEuler Real.cos Real.sin e).z * (cq_fromEuler Real.cos Real.sin e).z
      + (cq_fromEuler Real.cos Real.sin e).w * (cq_fromEuler Real.cos Real.sin e).w
      = Real.cos e.z * Real.cos e.y := by
  have ex : e.x = 2 * (e.x * (1 / 2)) := by ring
  have ey : e.y = 2 * (e.y * (1 / 2)) := by ring
  have ez : e.z = 2 * (e.z * (1 / 2)) := by ring
  have P1 := Real.cos_sq_add_sin_sq (e.x * (1 / 2))
  have P2 := Real.cos_sq_add_sin_sq (e.y * (1 / 2))
  have P3 := Real.cos_sq_add_sin_sq (e.z * (1 / 2))
  have S1 : Real.sin e.x = 2 * Real.sin (e.x * (1 / 2)) * Real.cos (e.x * (1 / 2)) := by
    conv_lhs => rw [ex]
    exact Real.sin_two_mul _
  have S2 : Real.sin e.y = 2 * Real.sin (e.y * (1 / 2)) * Real.cos (e.y * (1 / 2)) := by
    conv_lhs => rw [ey]
    exact Real.sin_two_mul _
  have S3 : Real.sin e.z = 2 * Real.sin (e.z * (1 / 2)) * Real.cos (e.z * (1 / 2)) := by
    conv_lhs => rw [ez]
    exact Real.sin_two_mul _
  have C1 : Real.cos e.x = Real.cos (e.x * (1 / 2)) ^ 2 - Real.sin (e.x * (1 / 2)) ^ 2 := by
    conv_lhs => rw [ex]
    exact Real.cos_two_mul' _
  have C2 : Real.cos e.y = Real.cos (e.y * (1 / 2)) ^ 2 - Real.sin (e.y * (1 / 2)) ^ 2 := by
    conv_lhs => rw [ey]
    exact Real.cos_two_mul' _
  have C3 : Real.cos e.z = Real.cos (e.z * (1 / 2)) ^ 2 - Real.sin (e.z * (1 / 2)) ^ 2 := by
    conv_lhs => rw [ez]
    exact Real.cos_two_mul' _
  rw [S1, S2, S3, C1, C2, C3]
  simp only [cq_fromEuler, sq_len, eulerTest]
  generalize Real.cos (e.x * (1 / 2)) = c1 at P1
  generalize Real.sin (e.x * (1 / 2)) = s1 at P1
  generalize Real.cos (e.y * (1 / 2)) = c2 at P2
  generalize Real.sin (e.y * (1 / 2)) = s2 at P2
  generalize Real.cos (e.z * (1 / 2)) = c3 at P3
  generalize Real.sin (e.z * (1 / 2)) = s3 at P3
  refine ⟨?_, ?_, ?_, ?_, ?_, ?_⟩
  · linear_combination (c2 ^ 2 + s2 ^ 2) * (c3 ^ 2 + s3 ^ 2) * P1 + (c3 ^ 2 + s3 ^ 2) * P2 + P3
  · linear_combination 2 * c2 * s2 * (c3 ^ 2 + s3 ^ 2) * P1 + 2 * c2 * s2 * P3
  · linear_combination 2 * s1 * c1 * (c2 ^ 2 - s2 ^ 2) * P3
  · linear_combination (c1 ^ 2 - s1 ^ 2) * (c2 ^ 2 - s2 ^ 2) * P3
  · linear_combination 2 * s3 * c3 * (c2 ^ 2 - s2 ^ 2) * P1
  · linear_combination (c3 ^ 2 - s3 ^ 2) * (c2 ^ 2 - s2 ^ 2) * P1

end Euler

section EulerClaim

open Real

/-- C14 (amended): for every Euler triple `e` with pitch `e.x` and roll `e.z` strictly
between `-π/2` and `π/2`, yaw `e.y` between `-π/2` and `π/2`, and with
`q = cq_fromEuler(e)` outside both singular branches of `cq_toEuler`
(`|q.x·q.y + q.z·q.w| ≤ 0.499·(x²+y²+z²+w²)`), `cq_toEuler(q)` is `e` itself and
`cq_fromEuler(cq_toEuler(q))` equals `q`, component by component. -/
theorem euler_roundtrip (e : cqFloat3 ℝ) (hx1 : -(π / 2) < e.x) (hx2 : e.x < π / 2)
    (hy1 : -(π / 2) ≤ e.y) (hy2 : e.y ≤ π / 2) (hz1 : -(π / 2) < e.z) (hz2 : e.z < π / 2)
    (hns : |eulerTest (cq_fromEuler Real.cos Real.sin e)| ≤
      499 / 1000 * sq_len (cq_fromEuler Real.cos Real.sin e)) :
    cq_toEuler atan2 Real.arcsin (π / 2) (cq_fromEuler Real.cos Real.sin e) = e ∧
    cq_fromEuler Real.cos Real.sin
      (cq_toEuler atan2 Real.arcsin (π / 2) (cq_fromEuler Real.cos Real.sin e)) =
      cq_fromEuler Real.cos Real.sin e := by
  obtain ⟨hlen, htest, hxn, hxd, hzn, hzd⟩ := fromEuler_shape e
  obtain ⟨lo, hi⟩ := abs_le.mp hns
  rw [hlen] at lo hi
  have hpi := Real.pi_pos
  have hcos0 : 0 ≤ Real.cos e.y := Real.cos_nonneg_of_mem_Icc ⟨hy1, hy2⟩
  have hcos : 0 < Real.cos e.y := by
    rcases hcos0.lt_or_eq with h | h
    · exact h
    · exfalso
      have hs := Real.sin_sq_add_cos_sq e.y
      rw [← h, ← htest] at hs
      nlinarith
  have key : cq_toEuler atan2 Real.arcsin (π / 2) (cq_fromEuler Real.cos Real.sin e) = e := by
    rw [cq_toEuler_regular _ _ _ _ (by rw [hlen]; linarith) (by rw [hlen]; linarith),
      hxn, hxd, hzn, hzd, hlen, div_one, htest,
      atan2_polar _ _ hcos (by linarith) (by linarith),
      atan2_polar _ _ hcos (by linarith) (by linarith), Real.arcsin_sin hy1 hy2]
  exact ⟨key, by rw [key]⟩

/-- C14 (amended) at the Euler triple `(π/3, 0, -π/4)`. -/
theorem euler_roundtrip_witness :
    cq_toEuler atan2 Real.arcsin (π / 2) (cq_fromEuler Real.cos Real.sin ⟨π / 3, 0, -(π / 4)⟩) =
      ⟨π / 3, 0, -(π / 4)⟩ ∧
    cq_fromEuler Real.cos Real.sin
      (cq_toEuler atan2 Real.arcsin (π / 2)
        (cq_fromEuler Real.cos Real.sin ⟨π / 3, 0, -(π / 4)⟩)) =
      cq_fromEuler Real.cos Real.sin ⟨π / 3, 0, -(π / 4)⟩ :=
  euler_roundtrip ⟨π / 3, 0, -(π / 4)⟩ (by linarith [Real.pi_pos]) (by linarith [Real.pi_pos])
    (by linarith [Real.pi_pos]) (by linarith [Real.pi_pos]) (by linarith [Real.pi_pos])
    (by linarith [Real.pi_pos])
    (by
      obtain ⟨hlen, htest, -⟩ := fromEuler_shape (⟨π / 3, 0, -(π / 4)⟩ : cqFloat3 ℝ)
      rw [Real.sin_zero] at htest
      have h0 : eulerTest (cq_fromEuler Real.cos Real.sin ⟨π / 3, 0, -(π / 4)⟩) = 0 := by
        linarith
      rw [h0, hlen]
      norm_num)

theorem fromEuler_full_turn :
    cq_fromEuler Real.cos Real.sin (⟨0, 2 * π, 0⟩ : cqFloat3 ℝ) = ⟨0, 0, 0, -1⟩ := by
  have h : 2 * π * (1 / 2) = π := by ring
  simp only [cq_fromEuler, h, Real.cos_pi, Real.sin_pi, zero_mul, Real.cos_zero, Real.sin_zero]
  norm_num

theorem fromEuler_zero :
    cq_fromEuler Real.cos Real.sin (⟨0, 0, 0⟩ : cqFloat3 ℝ) = ⟨0, 0, 0, 1⟩ := by
  simp [cq_fromEuler]

theorem toEuler_neg_identity :
    cq_toEuler atan2 Real.arcsin (π / 2) (⟨0, 0, 0, -1⟩ : cqQuaternion ℝ) = ⟨0, 0, 0⟩ := by
  have h0 : atan2 0 1 = 0 := by
    unfold atan2
    have e : (⟨1, 0⟩ : ℂ) = 1 := by apply Complex.ext <;> simp
    rw [e, Complex.arg_one]
  rw [cq_toEuler_regular _ _ _ _ (by norm_num [eulerTest, sq_len])
    (by norm_num [eulerTest, sq_len])]
  norm_num [eulerTest, sq_len, h0]

/-- C14 fails at the Euler triple `e = (0, 2π, 0)`: pitch and roll are 0, the quaternion
`q = cq_fromEuler(e) = (0, 0, 0, -1)` is outside both singular branches, `cq_toEuler(q)` is
`(0, 0, 0)`, and `cq_fromEuler(cq_toEuler(q)) = (0, 0, 0, 1)` differs from `q` in the `w`
component. -/
theorem euler_roundtrip_fails :
    (-(π / 2) < (0 : ℝ) ∧ (0 : ℝ) < π / 2) ∧
    cq_fromEuler Real.cos Real.sin (⟨0, 2 * π, 0⟩ : cqFloat3 ℝ) = ⟨0, 0, 0, -1⟩ ∧
    |eulerTest (cq_fromEuler Real.cos Real.sin (⟨0, 2 * π, 0⟩ : cqFloat3 ℝ))| ≤
      499 / 1000 * sq_len (cq_fromEuler Real.cos Real.sin (⟨0, 2 * π, 0⟩ : cqFloat3 ℝ)) ∧
    cq_fromEuler Real.cos Real.sin
      (cq_toEuler atan2 Real.arcsin (π / 2)
        (cq_fromEuler Real.cos Real.sin (⟨0, 2 * π, 0⟩ : cqFloat3 ℝ))) = ⟨0, 0, 0, 1⟩ ∧
    cq_fromEuler Real.cos Real.sin
      (cq_toEuler atan2 Real.arcsin (π / 2)
        (cq_fromEuler Real.cos Real.sin (⟨0, 2 * π, 0⟩ : cqFloat3 ℝ))) ≠
      cq_fromEuler Real.cos Real.sin (⟨0, 2 * π, 0⟩ : cqFloat3 ℝ) := by
  have hpi := Real.pi_pos
  rw [fromEuler_full_turn, toEuler_neg_identity, fromEuler_zero]
  refine ⟨⟨by linarith, by linarith⟩, rfl, by norm_num [eulerTest, sq_len], rfl, ?_⟩
  intro h
  have hw := congrArg cqQuaternion.w h
  norm_num at hw

end EulerClaim

section Binary32

theorem roundHalfEven_of_lt (m : ℚ) (f : ℤ) (h1 : (f : ℚ) ≤ m) (h2 : m < f + 1 / 2) :
    roundHalfEven m = f := by
  have hf : ⌊m⌋ = f := Int.floor_eq_iff.mpr ⟨h1, by linarith⟩
  unfold roundHalfEven
  simp only [hf]
  rw [if_pos (by linarith)]

theorem roundHalfEven_tie_odd (m : ℚ) (f : ℤ) (h : m = f + 1 / 2) (hodd : f % 2 = 1) :
    roundHalfEven m = f + 1 := by
  have hf : ⌊m⌋ = f := Int.floor_eq_iff.mpr ⟨by linarith, by linarith⟩
  unfold roundHalfEven
  simp only [hf]
  rw [if_neg (by linarith), if_neg (by linarith), if_neg (by omega)]

theorem float32_round_eq (x : ℚ) (e k : ℤ) (hx : 0 < x) (he : -126 ≤ e)
    (h1 : (2 : ℚ) ^ e ≤ x) (h2 : x < (2 : ℚ) ^ (e + 1))
    (hk : roundHalfEven (x / 2 ^ (e - 23)) = k) :
    float32_round x = k * 2 ^ (e - 23) := by
  have hlog : Int.log 2 |x| = e := by
    rw [abs_of_pos hx]
    apply le_antisymm
    · have h := (Int.lt_zpow_iff_log_lt (b := 2) (by norm_num) hx (x := e + 1)).mp
        (by exact_mod_cast h2)
      omega
    · exact (Int.zpow_le_iff_le_log (b := 2) (by norm_num) hx).mp (by exact_mod_cast h1)
  unfold float32_round
  rw [if_neg hx.ne']
  simp only [hlog, max_eq_left he, hk]

theorem cq_Sqrt2_f32_eq : cq_Sqrt2_f32 = 11863283 / 8388608 := by
  unfold cq_Sqrt2_f32
  rw [float32_round_eq _ 0 11863283 (by norm_num) (by norm_num) (by norm_num) (by norm_num)
    (roundHalfEven_of_lt _ _ (by norm_num) (by norm_num))]
  norm_num

theorem Float2Int_f32_eq : Float2Int_f32 = 11863283 / 512 := by
  unfold Float2Int_f32
  rw [cq_Sqrt2_f32_eq, float32_round_eq _ 14 11863283 (by norm_num) (by norm_num) (by norm_num)
    (by norm_num) (roundHalfEven_of_lt _ _ (by norm_num) (by norm_num))]
  norm_num

theorem float32_round_product :
    float32_round (11863283 / 549755813888 * (11863283 / 512)) = 16777215 / 33554432 := by
  rw [float32_round_eq _ (-2) 16777215 (by norm_num) (by norm_num) (by norm_num) (by norm_num)
    (roundHalfEven_of_lt _ _ (by norm_num) (by norm_num))]
  norm_num

theorem float32_round_sum : float32_round (16777215 / 33554432 + 1 / 2) = 1 := by
  rw [float32_round_eq _ (-1) 16777216 (by norm_num) (by norm_num) (by norm_num) (by norm_num)
    (roundHalfEven_tie_odd _ 16777215 (by norm_num) (by norm_num))]
  norm_num

theorem float32_round_half : float32_round (1 / 2) = 1 / 2 := by
  rw [float32_round_eq _ (-1) 8388608 (by norm_num) (by norm_num) (by norm_num) (by norm_num)
    (roundHalfEven_of_lt _ _ (by norm_num) (by norm_num))]
  norm_num

theorem float32_round_input :
    float32_round (11863283 / 549755813888) = 11863283 / 549755813888 := by
  rw [float32_round_eq _ (-16) 11863283 (by norm_num) (by norm_num) (by norm_num) (by norm_num)
    (roundHalfEven_of_lt _ _ (by norm_num) (by norm_num))]
  norm_num

theorem quantize_f32_boundary : quantize_f32 (11863283 / 549755813888) = 1 := by
  unfold quantize_f32
  rw [Float2Int_f32_eq, float32_round_product, float32_round_sum]
  simp [int32_cast]

theorem quantize_f32_zero : quantize_f32 0 = 0 := by
  unfold quantize_f32
  have h : float32_round (0 * Float2Int_f32) = 0 := by
    rw [zero_mul]
    unfold float32_round
    rw [if_pos rfl]
  rw [h, zero_add, float32_round_half]
  have hf : ⌊(1 / 2 : ℚ)⌋ = 0 := by
    rw [Int.floor_eq_iff]
    constructor <;> norm_num
  rw [hf]
  decide

end Binary32

section Binary32Claims

open Real

theorem findLargest_eq_of_strict {α : Type} [LinearOrderedField α] (quat : Fin 4 → α)
    (L : Fin 4) (h : ∀ j, j ≠ L → |quat j| < |quat L|) : findLargest quat = L := by
  by_contra hne
  have h1 := findLargest_max quat L
  have h2 := h _ hne
  linarith

theorem compress_pack_f32_eq (q : cqQuaternion ℚ) (L : Fin 4) (na nb nc : ℤ)
    (hL : findLargest (quatOf q) = L) (ha : quantize_f32 (quatOf q (Mapping L 0)) = na)
    (hb : quantize_f32 (quatOf q (Mapping L 1)) = nb)
    (hc : quantize_f32 (quatOf q (Mapping L 2)) = nc) :
    compress_pack_f32 q =
      { largest := L.val % 4
        sign := if quatOf q L < 0 then 1 else 0
        a := lowBits (clampQ na)
        b := lowBits (clampQ nb)
        c := lowBits (clampQ nc)
        sign_a := if clampQ na < 0 then 1 else 0
        sign_b := if clampQ nb < 0 then 1 else 0
        sign_c := if clampQ nc < 0 then 1 else 0 } := by
  subst hL ha hb hc
  rfl

theorem compress_pack_f32_boundary :
    compress_pack_f32 ⟨11863283 / 549755813888, 11863283 / 549755813888, 0, 0⟩ =
      ⟨0, 0, 1, 0, 0, 0, 0, 0⟩ := by
  obtain ⟨⟨m0, m1, m2⟩, -, -, -⟩ := Mapping_rows
  obtain ⟨qx, qy, qz, qw⟩ := quatOf_apply
    (⟨11863283 / 549755813888, 11863283 / 549755813888, 0, 0⟩ : cqQuaternion ℚ)
  have hL : findLargest (quatOf
      (⟨11863283 / 549755813888, 11863283 / 549755813888, 0, 0⟩ : cqQuaternion ℚ)) = 0 := by
    have h := findLargest_lowest (quatOf
      (⟨11863283 / 549755813888, 11863283 / 549755813888, 0, 0⟩ : cqQuaternion ℚ)) 0
      (by intro j; fin_cases j <;> simp [quatOf])
    exact Fin.le_zero_iff.mp h
  rw [compress_pack_f32_eq _ 0 1 0 0 hL (by rw [m0, qy]; exact quantize_f32_boundary)
    (by rw [m1, qz]; exact quantize_f32_zero) (by rw [m2, qw]; exact quantize_f32_zero)]
  have e1 : lowBits (clampQ 1) = 1 := by decide
  have e2 : lowBits (clampQ 0) = 0 := by decide
  have e3 : ¬ clampQ 1 < 0 := by decide
  have e4 : ¬ clampQ 0 < 0 := by decide
  rw [e1, e2, if_neg e3, if_neg e4, qx]
  norm_num

theorem sqrt_two_lt_tight : √2 < (1.41421357 : ℝ) := by
  rw [Real.sqrt_lt' (by norm_num)]
  norm_num

theorem boundary_below_half :
    -(1 / 2 : ℝ) ≤ ((11863283 / 549755813888 : ℚ) : ℝ) * (16384 * √2) ∧
    ((11863283 / 549755813888 : ℚ) : ℝ) * (16384 * √2) < 1 / 2 := by
  have h1 := sqrt_two_gt
  have h2 := sqrt_two_lt_tight
  push_cast
  constructor <;> linarith

theorem quantizedSpec_boundary :
    quantizedSpec (√2) ((11863283 / 549755813888 : ℚ) : ℝ) = 0 := by
  obtain ⟨h1, h2⟩ := boundary_below_half
  have hf : ⌊((11863283 / 549755813888 : ℚ) : ℝ) * (16384 * √2) + 1 / 2⌋ = 0 := by
    rw [Int.floor_eq_iff]
    constructor <;> push_cast <;> linarith
  unfold quantizedSpec
  rw [hf]
  decide

theorem compress_pack_overflow :
    compress_pack (√2) (⟨10000000000, 0, 0, 20000000000⟩ : cqQuaternion ℝ) =
      ⟨3, 0, 0, 0, 0, 1, 0, 0⟩ ∧
    quantizedSpec (√2) (10000000000 : ℝ) = 16384 := by
  have h1 := sqrt_two_gt
  obtain ⟨-, -, -, m0, m1, m2⟩ := Mapping_rows
  obtain ⟨qx, qy, qz, qw⟩ := quatOf_apply (⟨10000000000, 0, 0, 20000000000⟩ : cqQuaternion ℝ)
  have hL : findLargest (quatOf (⟨10000000000, 0, 0, 20000000000⟩ : cqQuaternion ℝ)) = 3 := by
    apply findLargest_eq_of_strict
    intro j hj
    rw [qw]
    fin_cases j <;> simp only [Fin.zero_eta, Fin.mk_one, Fin.reduceFinMk, qx, qy, qz] <;>
      first | exact absurd rfl hj | norm_num
  have hbig : (2147483648 : ℤ) ≤ ⌊(10000000000 : ℝ) * (16384 * √2) + 1 / 2⌋ := by
    apply Int.le_floor.mpr
    push_cast
    linarith
  have hq : quantize (√2) (10000000000 : ℝ) = -2147483648 := by
    unfold quantize int32_cast
    simp only
    rw [if_neg (by omega)]
  constructor
  · rw [compress_pack_eq (√2) _ 3 (-2147483648) 0 0 hL (by rw [m0, qx]; exact hq)
      (by rw [m1, qy]; exact quantize_zero _) (by rw [m2, qz]; exact quantize_zero _)]
    have e1 : lowBits (clampQ (-2147483648)) = 0 := by decide
    have e2 : lowBits (clampQ 0) = 0 := by decide
    have e3 : clampQ (-2147483648) < 0 := by decide
    have e4 : ¬ clampQ 0 < 0 := by decide
    rw [e1, e2, if_pos e3, if_neg e4, qw]
    norm_num
    rfl
  · unfold quantizedSpec
    omega

/-- C15 fails as stated, in two ways.  (1) In binary32 arithmetic, at
`q = (v, v, 0, 0)` with the float `v = 11863283·2⁻³⁹`: the scan finds index 0, the first
stored component is `v`, for which `n = max(-16384, min(16384, ⌊v·16384·√2 + 1/2⌋)) = 0`,
and `compress_pack` stores `a = 1` (the product rounds to `1/2 - 2⁻²⁵` and the sum to 1).
(2) At `q = (10¹⁰, 0, 0, 2·10¹⁰)`, in exact arithmetic: the first stored component has
`n = 16384 ≥ 0`, the conversion to `int32_t` overflows, and the sign bit `sign_a` is 1. -/
theorem quantisation_as_specified_fails :
    (float32_round (11863283 / 549755813888) = 11863283 / 549755813888 ∧
      (compress_pack_f32 ⟨11863283 / 549755813888, 11863283 / 549755813888, 0, 0⟩).largest = 0 ∧
      (quantizedSpec (√2) ((11863283 / 549755813888 : ℚ) : ℝ) % 16384).toNat = 0 ∧
      (compress_pack_f32 ⟨11863283 / 549755813888, 11863283 / 549755813888, 0, 0⟩).a = 1) ∧
    ((compress_pack (√2) (⟨10000000000, 0, 0, 20000000000⟩ : cqQuaternion ℝ)).largest = 3 ∧
      ¬ quantizedSpec (√2) (10000000000 : ℝ) < 0 ∧
      (compress_pack (√2) (⟨10000000000, 0, 0, 20000000000⟩ : cqQuaternion ℝ)).sign_a = 1) := by
  rw [compress_pack_f32_boundary, quantizedSpec_boundary, compress_pack_overflow.1,
    compress_pack_overflow.2]
  exact ⟨⟨float32_round_input, rfl, by decide, rfl⟩, rfl, by decide, rfl⟩

/-- C17 fails as stated in binary32 arithmetic, at `q = (v, v, 0, 0)` with the float
`v = 11863283·2⁻³⁹`: every component satisfies `-1/2 ≤ v·16384·√2 < 1/2` (and the rounded
product `v * Float2Int` of the source is below `1/2` too), yet `compress_pack` stores
`a = 1`: the product rounds to `1/2 - 2⁻²⁵` and adding `.5f` rounds to 1. -/
theorem degenerate_input_rounds_up :
    float32_round (11863283 / 549755813888) = 11863283 / 549755813888 ∧
    (∀ i : Fin 4,
      -(1 / 2 : ℝ) ≤ ((quatOf (⟨11863283 / 549755813888, 11863283 / 549755813888, 0, 0⟩ :
        cqQuaternion ℚ) i : ℚ) : ℝ) * (16384 * √2) ∧
      ((quatOf (⟨11863283 / 549755813888, 11863283 / 549755813888, 0, 0⟩ :
        cqQuaternion ℚ) i : ℚ) : ℝ) * (16384 * √2) < 1 / 2) ∧
    float32_round (11863283 / 549755813888 * Float2Int_f32) < 1 / 2 ∧
    compress_pack_f32 ⟨11863283 / 549755813888, 11863283 / 549755813888, 0, 0⟩ =
      ⟨0, 0, 1, 0, 0, 0, 0, 0⟩ := by
  refine ⟨float32_round_input, ?_, ?_, compress_pack_f32_boundary⟩
  · obtain ⟨qx, qy, qz, qw⟩ := quatOf_apply
      (⟨11863283 / 549755813888, 11863283 / 549755813888, 0, 0⟩ : cqQuaternion ℚ)
    intro i
    fin_cases i <;> simp only [Fin.zero_eta, Fin.mk_one, Fin.reduceFinMk, qx, qy, qz, qw] <;>
      first | exact boundary_below_half | norm_num
  · rw [Float2Int_f32_eq, float32_round_product]
    norm_num

end Binary32Claims

section QuantisationWitness

open Real

theorem unit_components_fit (v : ℝ) (lo : -1 ≤ v) (hi : v ≤ 1) :
    -2147483648 ≤ ⌊v * (16384 * √2) + 1 / 2⌋ ∧ ⌊v * (16384 * √2) + 1 / 2⌋ ≤ 2147483647 := by
  have h1 := sqrt_two_gt
  have h2 := sqrt_two_lt
  have a := mul_nonneg (by linarith : (0 : ℝ) ≤ v + 1) (by linarith : (0 : ℝ) ≤ √2)
  have b := mul_nonneg (by linarith : (0 : ℝ) ≤ 1 - v) (by linarith : (0 : ℝ) ≤ √2)
  exact floor_fits _ (by nlinarith) (by nlinarith)

/-- C15 (amended) at `q = (4/5, -3/5, 0, 0)`, whose first stored component is negative:
the field `a` is the residue of `n` modulo 16384 and `sign_a` is 1 exactly when `n < 0`. -/
theorem quantisation_as_specified_witness :
    (compress_pack (√2) (⟨4 / 5, -3 / 5, 0, 0⟩ : cqQuaternion ℝ)).a =
      (quantizedSpec (√2) (quatOf (⟨4 / 5, -3 / 5, 0, 0⟩ : cqQuaternion ℝ)
        (Mapping (findLargest (quatOf (⟨4 / 5, -3 / 5, 0, 0⟩ : cqQuaternion ℝ))) 0))
        % 16384).toNat ∧
    ((compress_pack (√2) (⟨4 / 5, -3 / 5, 0, 0⟩ : cqQuaternion ℝ)).sign_a = 1 ↔
      quantizedSpec (√2) (quatOf (⟨4 / 5, -3 / 5, 0, 0⟩ : cqQuaternion ℝ)
        (Mapping (findLargest (quatOf (⟨4 / 5, -3 / 5, 0, 0⟩ : cqQuaternion ℝ))) 0)) < 0) :=
  (quantisation_as_specified (√2) ⟨4 / 5, -3 / 5, 0, 0⟩ (fun k => by
    have hb : ∀ i : Fin 4, -1 ≤ quatOf (⟨4 / 5, -3 / 5, 0, 0⟩ : cqQuaternion ℝ) i ∧
        quatOf (⟨4 / 5, -3 / 5, 0, 0⟩ : cqQuaternion ℝ) i ≤ 1 := by
      obtain ⟨qx, qy, qz, qw⟩ := quatOf_apply (⟨4 / 5, -3 / 5, 0, 0⟩ : cqQuaternion ℝ)
      intro i
      fin_cases i <;> simp only [Fin.zero_eta, Fin.mk_one, Fin.reduceFinMk, qx, qy, qz, qw] <;>
        constructor <;> norm_num
    exact unit_components_fit _ (hb _).1 (hb _).2)).2.2.2.2.1

end QuantisationWitness

end CQ
